import Mathlib

/-!
Shallow embedding of the assertion-resolution and aggregation core of
`packages/utils/src/assertions.js` (lighthouse-ci), together with theorems
checking the natural-language specification against the code.

Modelling conventions:
* JS numbers that pass `isFiniteNumber` are rationals (`ℚ`); a raw per-report
  value is an `Option ℚ` where `none` models `undefined` / a non-finite value.
* JS objects with optional fields become structures with `Option` fields.
* Exceptions become `Except String`.
* `details && details.items` is collapsed into one optional field
  `detailsItems` (the value getter only observes the combined chain).
* External collaborators that are not part of this file's source
  (regex engine, markdown link splitter, representative-run selector,
  preset registry) are passed in as an `Externals` record of pure functions.
-/

/-- One row/item of an audit's `details.items` table: used by the `maxLength`
getter (only its count), the budget deriver (`resourceType`, `size`,
`sizeOverBudget`, `requestCount`, `countOverBudget`) and the resource-summary
deriver (`resourceType`, `size`, `requestCount`). -/
structure DetailsItem where
  resourceType : String := ""
  size : ℚ := 0
  requestCount : ℚ := 0
  sizeOverBudget : Option ℚ := none
  countOverBudget : Option String := none
deriving DecidableEq

/-- One audit's output inside one report (`LH.AuditResult`). -/
structure AuditResult where
  score : Option ℚ := none
  scoreDisplayMode : Option String := none
  numericValue : Option ℚ := none
  detailsItems : Option (List DetailsItem) := none
  title : Option String := none
  description : Option String := none
deriving DecidableEq

/-- A category entry of a report (`lhr.categories[id]`). -/
structure CategoryInfo where
  score : Option ℚ := none
deriving DecidableEq

/-- One full report (`LH.Result`): mappings are association lists, lookup is
first-match (JS object keys are unique, so this is faithful). -/
structure LHR where
  finalUrl : String := ""
  categories : List (String × CategoryInfo) := []
  audits : List (String × AuditResult) := []
deriving DecidableEq

/-- The four assertion kinds (`AssertionType` in the source). -/
inductive AssertionType
  | auditRan
  | minScore
  | maxLength
  | maxNumericValue
deriving DecidableEq

/-- The string name of an assertion kind; the aggregator branches on
`assertionType.startsWith('max')` / `('min')` over this name. -/
def AssertionType.name : AssertionType → String
  | .auditRan => "auditRan"
  | .minScore => "minScore"
  | .maxLength => "maxLength"
  | .maxNumericValue => "maxNumericValue"

/-- The aggregation methods (`'optimistic'|'pessimistic'|'median'|'median-run'`). -/
inductive AggregationMethod
  | optimistic
  | pessimistic
  | median
  | medianRun
deriving DecidableEq

/-- `AUDIT_TYPE_VALUE_GETTERS`, applied to a defined audit result. `none`
models a value that is `undefined` (or otherwise not a finite number). The
`auditRan` getter returns 1 on every defined result; its 0 case
(`result === undefined`) is handled at the call sites that deal with
possibly-undefined results. -/
def AUDIT_TYPE_VALUE_GETTERS : AssertionType → AuditResult → Option ℚ
  | .auditRan, _ => some 1
  | .minScore, result =>
    match result.score with
    | some s => some s
    | none =>
      if result.scoreDisplayMode = some "notApplicable" then some 1
      else if result.scoreDisplayMode = some "informative" then some 0
      else none
  | .maxLength, result => result.detailsItems.map (fun items => (items.length : ℚ))
  | .maxNumericValue, result => result.numericValue

/-- The operator string and pass predicate of one assertion kind. -/
structure OperatorDef where
  operator : String
  passesFn : ℚ → ℚ → Bool

/-- `AUDIT_TYPE_OPERATORS` from the source. -/
def AUDIT_TYPE_OPERATORS : AssertionType → OperatorDef
  | .auditRan => { operator := "==", passesFn := fun actual expected => actual == expected }
  | .minScore => { operator := ">=", passesFn := fun actual expected => decide (expected ≤ actual) }
  | .maxLength => { operator := "<=", passesFn := fun actual expected => decide (actual ≤ expected) }
  | .maxNumericValue => { operator := "<=", passesFn := fun actual expected => decide (actual ≤ expected) }

/-- `isFiniteNumber`: in this embedding a raw value is `some q` exactly when
the JS value is a finite number. -/
def isFiniteNumber (x : Option ℚ) : Bool := x.isSome

/-- Per-assertion options (`LHCI.AssertCommand.AssertionOptions`). -/
structure AssertionOptions where
  minScore : Option ℚ := none
  maxLength : Option ℚ := none
  maxNumericValue : Option ℚ := none
  aggregationMethod : Option AggregationMethod := none
deriving DecidableEq

/-- The value of one key of the `assertions` mapping: either a failure-level
string or a `[level, options]` pair. -/
inductive AssertionValue
  | level (level : String)
  | levelWithOptions (level : String) (options : AssertionOptions)
deriving DecidableEq

/-- `normalizeAssertion`: `undefined` and the empty string are falsy in JS, so
both default to `['off', {}]`. -/
def normalizeAssertion : Option AssertionValue → String × AssertionOptions
  | none => ("off", {})
  | some (.level level) => if level = "" then ("off", {}) else (level, {})
  | some (.levelWithOptions level options) => (level, options)

/-- JS `String.prototype.startsWith`, modelled on the character lists (the
built-in `String.startsWith` is semantically identical but does not reduce
inside the kernel). -/
def strStartsWith (s p : String) : Bool := p.toList.isPrefixOf s.toList

/-- `getValueForAggregationMethod`. `Math.min`/`Math.max` over the empty list
are `±Infinity` in JS; the `getD 0` default is only observable on an empty
`values` list, which no caller reaches with a deciding role (the evaluator
only aggregates non-empty filtered value lists except in the degenerate
pessimistic/no-reports corner, where the comparison outcome is not relied on
by any theorem below). -/
def getValueForAggregationMethod (values : List ℚ) (aggregationMethod : AggregationMethod)
    (assertionType : AssertionType) : ℚ :=
  if aggregationMethod = .median then
    let medianIndex := (values.length - 1) / 2
    let sorted := List.insertionSort (fun a b => a ≤ b) values
    if values.length % 2 = 1 then sorted.getD medianIndex 0
    else (sorted.getD medianIndex 0 + sorted.getD (medianIndex + 1) 0) / 2
  else
    let useMin :=
      (aggregationMethod = .optimistic ∧ strStartsWith assertionType.name "max") ∨
      (aggregationMethod = .pessimistic ∧ strStartsWith assertionType.name "min")
    if useMin then (values.min?).getD 0 else (values.max?).getD 0

/-- An assertion result before the URL/audit identity annotation
(`AssertionResultNoURL`). -/
structure AssertionResultNoURL where
  name : AssertionType
  operator : String
  expected : ℚ
  actual : ℚ
  values : List ℚ
  auditProperty : Option String := none
deriving DecidableEq

/-- The raw per-report values (`auditResults.map(AUDIT_TYPE_VALUE_GETTERS[assertionType])`). -/
def rawValues (assertionType : AssertionType) (auditResults : List AuditResult) : List (Option ℚ) :=
  auditResults.map (AUDIT_TYPE_VALUE_GETTERS assertionType)

/-- `values.filter(isFiniteNumber)`. -/
def finiteValues (assertionType : AssertionType) (auditResults : List AuditResult) : List ℚ :=
  (rawValues assertionType auditResults).filterMap id

/-- `values.map(value => (isFiniteNumber(value) ? 1 : 0))`. -/
def didRunValues (assertionType : AssertionType) (auditResults : List AuditResult) : List ℚ :=
  (rawValues assertionType auditResults).map (fun value => if isFiniteNumber value then 1 else 0)

/-- The failure-to-measure condition of `getAssertionResult`:
`(!filteredValues.length && aggregationMethod !== 'pessimistic') ||
 (filteredValues.length !== values.length && aggregationMethod === 'pessimistic')`. -/
def measurementFailed (auditResults : List AuditResult) (aggregationMethod : AggregationMethod)
    (assertionType : AssertionType) : Prop :=
  ((finiteValues assertionType auditResults).length = 0 ∧ aggregationMethod ≠ .pessimistic) ∨
  ((finiteValues assertionType auditResults).length ≠ (rawValues assertionType auditResults).length ∧
    aggregationMethod = .pessimistic)

instance (auditResults : List AuditResult) (aggregationMethod : AggregationMethod)
    (assertionType : AssertionType) :
    Decidable (measurementFailed auditResults aggregationMethod assertionType) :=
  inferInstanceAs (Decidable
    (((finiteValues assertionType auditResults).length = 0 ∧ aggregationMethod ≠ .pessimistic) ∨
     ((finiteValues assertionType auditResults).length ≠
        (rawValues assertionType auditResults).length ∧ aggregationMethod = .pessimistic)))

/-- `getAssertionResult`: the generic assertion evaluator. -/
def getAssertionResult (auditResults : List AuditResult) (aggregationMethod : AggregationMethod)
    (assertionType : AssertionType) (expectedValue : ℚ) : List AssertionResultNoURL :=
  if measurementFailed auditResults aggregationMethod assertionType then
    [{ name := .auditRan, expected := 1, actual := 0,
       values := didRunValues assertionType auditResults, operator := "==" }]
  else
    let actualValue :=
      getValueForAggregationMethod (finiteValues assertionType auditResults) aggregationMethod assertionType
    if (AUDIT_TYPE_OPERATORS assertionType).passesFn actualValue expectedValue then []
    else
      [{ name := assertionType, expected := expectedValue, actual := actualValue,
         values := finiteValues assertionType auditResults,
         operator := (AUDIT_TYPE_OPERATORS assertionType).operator }]

/-- The `maxLength`/`maxNumericValue` ("manual") part of `getAssertionResults`:
each is evaluated independently when configured, in source order. -/
def manualAssertionResults (auditResults : List AuditResult) (options : AssertionOptions)
    (aggregationMethod : AggregationMethod) : List AssertionResultNoURL :=
  (match options.maxLength with
   | some v => getAssertionResult auditResults aggregationMethod .maxLength v
   | none => []) ++
  (match options.maxNumericValue with
   | some v => getAssertionResult auditResults aggregationMethod .maxNumericValue v
   | none => [])

/-- `getAssertionResults`: per-audit assertion assembly. Note the source
hardcodes operator `'>='` on the audit-did-not-run failure emitted here. -/
def getAssertionResults (possibleAuditResults : List (Option AuditResult))
    (options : AssertionOptions) : List AssertionResultNoURL :=
  let aggregationMethod := options.aggregationMethod.getD .optimistic
  if possibleAuditResults.any (fun result => result.isNone) then
    [{ name := .auditRan, expected := 1, actual := 0,
       values := possibleAuditResults.map (fun result => if result.isNone then 0 else 1),
       operator := ">=" }]
  else
    let auditResults := possibleAuditResults.filterMap id
    let hadManualAssertion := options.maxLength.isSome || options.maxNumericValue.isSome
    let realMinScore :=
      if options.minScore.isNone && !hadManualAssertion then some 1 else options.minScore
    manualAssertionResults auditResults options aggregationMethod ++
      (match realMinScore with
       | some v => getAssertionResult auditResults aggregationMethod .minScore v
       | none => [])

/-- The first maximal run of decimal digits in a string
(`countOverBudget.match(/\d+/)`); `none` when the string has no digit. -/
def firstDigitRun (s : String) : Option String :=
  let rest := s.toList.dropWhile (fun c => !c.isDigit)
  if rest.isEmpty then none
  else some (String.mk (rest.takeWhile (fun c => c.isDigit)))

/-- JS truthiness of an optional number (`0`, `NaN` and `undefined` are falsy). -/
def truthyNumOpt : Option ℚ → Bool
  | none => false
  | some v => v != 0

/-- JS truthiness of an optional string (the empty string and `undefined` are falsy). -/
def truthyStringOpt : Option String → Bool
  | none => false
  | some s => s != ""

/-- `getAssertionResultsForBudgetRow`: evaluate a synthesized single-report
pseudo-audit `{score: 0, numericValue: actual}` pessimistically as a
`maxNumericValue` assertion and tag the result with the row key. -/
def getAssertionResultsForBudgetRow (key : String) (actual : ℚ) (expected : ℚ) :
    List AssertionResultNoURL :=
  (getAssertionResult [{ score := some 0, numericValue := some actual }]
      .pessimistic .maxNumericValue expected).map
    (fun assertion => { assertion with auditProperty := some key })

/-- The `sizeOverBudget` block of the budget-row loop body: the accumulator is
the `(results, resultsKeys)` pair of mutable locals. -/
def processBudgetRowSize (acc : List AssertionResultNoURL × List String)
    (budgetRow : DetailsItem) : List AssertionResultNoURL × List String :=
  let sizeKey := budgetRow.resourceType ++ ".size"
  if truthyNumOpt budgetRow.sizeOverBudget ∧ ¬ sizeKey ∈ acc.2 then
    (acc.1 ++ getAssertionResultsForBudgetRow sizeKey budgetRow.size
        (budgetRow.size - budgetRow.sizeOverBudget.getD 0),
     acc.2 ++ [sizeKey])
  else acc

/-- The `countOverBudget` block of the budget-row loop body. The `continue` on
an unparseable `countOverBudget` skips only this (final) block of the
iteration, so it leaves the accumulator unchanged. -/
def processBudgetRowCount (acc : List AssertionResultNoURL × List String)
    (budgetRow : DetailsItem) : List AssertionResultNoURL × List String :=
  let countKey := budgetRow.resourceType ++ ".count"
  if truthyStringOpt budgetRow.countOverBudget ∧ ¬ countKey ∈ acc.2 then
    match firstDigitRun (budgetRow.countOverBudget.getD "") with
    | none => acc
    | some digits =>
      let overBudget : ℚ := ((digits.toNat?).getD 0 : ℕ)
      (acc.1 ++ getAssertionResultsForBudgetRow countKey budgetRow.requestCount
          (budgetRow.requestCount - overBudget),
       acc.2 ++ [countKey])
  else acc

/-- One full iteration of the budget-row loop body of
`getBudgetAssertionResults`: the size block, then the count block. -/
def processBudgetRow (acc : List AssertionResultNoURL × List String) (budgetRow : DetailsItem) :
    List AssertionResultNoURL × List String :=
  processBudgetRowCount (processBudgetRowSize acc budgetRow) budgetRow

/-- One iteration of the outer loop of `getBudgetAssertionResults`:
`if (!auditResult.details || !auditResult.details.items) continue`. -/
def processBudgetAudit (acc : List AssertionResultNoURL × List String)
    (auditResult : AuditResult) : List AssertionResultNoURL × List String :=
  match auditResult.detailsItems with
  | none => acc
  | some items => items.foldl processBudgetRow acc

/-- `getBudgetAssertionResults`: re-express each violated budget row as an
independent pseudo-assertion, de-duplicated by `"<resourceType>.<metric>"`. -/
def getBudgetAssertionResults (auditResults : List AuditResult) : List AssertionResultNoURL :=
  (auditResults.foldl processBudgetAudit ([], [])).1

/-- Evaluate one budget trigger `(key, actual, expected)`: exactly the
`getAssertionResultsForBudgetRow` call the deriver makes for a surfacing
violation. -/
def evalTrigger (t : String × ℚ × ℚ) : List AssertionResultNoURL :=
  getAssertionResultsForBudgetRow t.1 t.2.1 t.2.2

/-- The size trigger a budget row raises (before deduplication): when
`sizeOverBudget` is truthy, the key `"<resourceType>.size"` with `actual` the
row's size and `expected` the size minus the over-budget amount. -/
def rowSizeTriggers (row : DetailsItem) : List (String × ℚ × ℚ) :=
  if truthyNumOpt row.sizeOverBudget then
    [(row.resourceType ++ ".size", row.size, row.size - row.sizeOverBudget.getD 0)]
  else []

/-- The count trigger a budget row raises (before deduplication): when
`countOverBudget` is a truthy string carrying a digit run, the key
`"<resourceType>.count"` with `actual` the row's request count and `expected`
the count minus the parsed over-budget amount. -/
def rowCountTriggers (row : DetailsItem) : List (String × ℚ × ℚ) :=
  if truthyStringOpt row.countOverBudget then
    match firstDigitRun (row.countOverBudget.getD "") with
    | none => []
    | some digits =>
      [(row.resourceType ++ ".count", row.requestCount,
        row.requestCount - (((digits.toNat?).getD 0 : ℕ) : ℚ))]
  else []

/-- All triggers a budget row raises, size first then count, in the order the
deriver inspects them. -/
def rowTriggers (row : DetailsItem) : List (String × ℚ × ℚ) :=
  rowSizeTriggers row ++ rowCountTriggers row

/-- All triggers of a batch of budget audit results, in encounter order:
audits in batch order, rows in detail order, size before count. -/
def batchTriggers (batch : List AuditResult) : List (String × ℚ × ℚ) :=
  batch.flatMap (fun a => (a.detailsItems.getD []).flatMap rowTriggers)

/-- Process one trigger against the accumulated (results, seen-keys) pair:
a trigger whose key was already seen is dropped, otherwise its evaluation is
appended and its key marked seen. -/
def processTrigger (acc : List AssertionResultNoURL × List String) (t : String × ℚ × ℚ) :
    List AssertionResultNoURL × List String :=
  if t.1 ∈ acc.2 then acc else (acc.1 ++ evalTrigger t, acc.2 ++ [t.1])

/-- Keep, in order, only the first trigger carried by each key (relative to an
initial set of already-seen keys): the functional core of the deriver's
per-key deduplication. -/
def firstTriggerPerKey : List (String × ℚ × ℚ) → List String → List (String × ℚ × ℚ)
  | [], _ => []
  | t :: ts, seen =>
    if t.1 ∈ seen then firstTriggerPerKey ts seen
    else t :: firstTriggerPerKey ts (seen ++ [t.1])

/-- `getCategoryAssertionResults`: the category deriver. The source reuses the
"resource-summary" wording in this error message. -/
def getCategoryAssertionResults (auditProperty : List String)
    (assertionOptions : AssertionOptions) (lhrs : List LHR) :
    Except String (List AssertionResultNoURL) :=
  if auditProperty.length ≠ 1 then
    .error ("Invalid resource-summary assertion \"" ++ String.intercalate "." auditProperty ++ "\"")
  else
    let categoryId := auditProperty.headD ""
    let psuedoAudits : List (Option AuditResult) := lhrs.map (fun lhr =>
      match lhr.categories.lookup categoryId with
      | none => none
      | some category => some { score := category.score })
    .ok ((getAssertionResults psuedoAudits assertionOptions).map
      (fun result => { result with auditProperty := some categoryId }))

/-- `getAssertionResultsForAudit`: dispatch to the budget, category or
resource-summary derivers, or to the generic evaluator. Accessing
`auditResult.details` on an `undefined` element of the budget batch throws a
`TypeError` in JS; that abnormal exit is modelled as an error value. -/
def getAssertionResultsForAudit (auditId : String) (auditProperty : Option (List String))
    (auditResults : List (Option AuditResult)) (assertionOptions : AssertionOptions)
    (lhrs : List LHR) : Except String (List AssertionResultNoURL) :=
  if auditId = "performance-budget" then
    if auditResults.any (fun result => result.isNone) then
      .error "TypeError: Cannot read property of undefined"
    else .ok (getBudgetAssertionResults (auditResults.filterMap id))
  else
    match auditProperty with
    | some ap =>
      if auditId = "categories" then getCategoryAssertionResults ap assertionOptions lhrs
      else if auditId = "resource-summary" then
        if ap.length ≠ 2 ∨ ¬ (["size", "count"].contains (ap.getD 1 "")) then
          .error ("Invalid resource-summary assertion \"" ++ String.intercalate "." ap ++ "\"")
        else
          let psuedoAuditResults : List (Option AuditResult) := auditResults.map (fun result =>
            match result with
            | none => none
            | some result =>
              match result.detailsItems with
              | none => none
              | some items =>
                match items.find? (fun item => item.resourceType = ap.getD 0 "") with
                | none => none
                | some item =>
                  some { result with
                         numericValue := some (if ap.getD 1 "" = "count" then item.requestCount else item.size) })
          .ok ((getAssertionResults psuedoAuditResults assertionOptions).map
            (fun result => { result with auditProperty := some (String.intercalate "." ap) }))
      else .ok (getAssertionResults auditResults assertionOptions)
    | none => .ok (getAssertionResults auditResults assertionOptions)

/-- A segment produced by the markdown link splitter (external collaborator). -/
structure MarkdownSegment where
  isLink : Bool := false
  text : String := ""
  linkHref : Option String := none

/-- Top-level assertion configuration without `assertMatrix`
(`LHCI.AssertCommand.BaseOptions`). -/
structure BaseOptions where
  preset : Option String := none
  assertions : Option (List (String × AssertionValue)) := none
  matchingUrlPattern : Option String := none
  aggregationMethod : Option AggregationMethod := none
  budgetsFile : Option String := none

/-- The external collaborators of the core (§6 of the spec): the host regex
engine, the markdown link splitter, the representative-run selector and the
preset registry. They are pure functions supplied by the caller. -/
structure Externals where
  regexTest : String → String → Bool
  splitMarkdownLink : String → List MarkdownSegment
  computeRepresentativeRuns : List (List (LHR × LHR)) → List LHR
  presetLookup : String → Option BaseOptions

/-- Modelled from the spec: the case-conversion helper `_.kebabCase` lives in
`packages/utils/src/lodash.js`, which is not part of the given source; §6
specifies a stable case-folding to a canonical dashed form. Keys that are
already fully lower-case (the canonical kebab form, dots included) are fixed
points; an upper-case letter becomes a dash followed by its lower-case form. -/
def kebabCase (s : String) : String :=
  String.mk (s.toList.foldr
    (fun c acc => if c.isUpper then '-' :: c.toLower :: acc else c :: acc) [])

/-- Modelled from the spec: `new Set(...)` iteration order — de-duplication
keeping the first occurrence of each element. -/
def dedupKeepFirst (l : List String) : List String :=
  l.foldl (fun acc s => if s ∈ acc then acc else acc ++ [s]) []

/-- The characters after the first occurrence of `token` in a character list,
or `none` when `token` does not occur. -/
def afterFirstToken (token : List Char) : List Char → Option (List Char)
  | [] => none
  | c :: rest =>
    if token.isPrefixOf (c :: rest) then some ((c :: rest).drop token.length)
    else afterFirstToken token rest

/-- JS `String.prototype.includes` (the empty string is contained in every
string). -/
def containsSubstring (s sub : String) : Bool :=
  (afterFirstToken sub.toList s.toList).isSome || sub = ""

/-- The `preset.match(/lighthouse:(.*)$/)` capture: everything after the first
occurrence of `"lighthouse:"`, or `none` when the pattern does not match. -/
def presetTarget (preset : String) : Option String :=
  (afterFirstToken "lighthouse:".toList preset.toList).map (fun cs => String.mk cs)

/-- Modelled from the spec: `_.merge` (deep merge, overrides win, §6) of two
configuration objects, restricted to the fields this module reads; the
per-key assertion mappings are merged with override keys winning. The helper
lives in `packages/utils/src/lodash.js`, not part of the given source. -/
def mergeBaseOptions (base overrides : BaseOptions) : BaseOptions :=
  { preset := overrides.preset.orElse (fun _ => base.preset),
    assertions :=
      match base.assertions, overrides.assertions with
      | none, o => o
      | b, none => b
      | some b, some o => some (b.filter (fun p => ¬ o.any (fun q => q.1 = p.1)) ++ o),
    matchingUrlPattern := overrides.matchingUrlPattern.orElse (fun _ => base.matchingUrlPattern),
    aggregationMethod := overrides.aggregationMethod.orElse (fun _ => base.aggregationMethod),
    budgetsFile := overrides.budgetsFile.orElse (fun _ => base.budgetsFile) }

/-- The `audit = failedAudit || auditInstances[0] || {}` fallback object. -/
def emptyAudit : AuditResult := {}

/-- One entry of `auditsToAssert`. -/
structure AuditToAssert where
  assertionKey : String
  auditId : String
  auditTitle : Option String := none
  auditDocumentationLink : Option String := none
  auditProperty : Option (List String) := none

/-- JS `String.prototype.split('.')`, modelled on the character lists (the
built-in `String.splitOn` is semantically identical on a one-character
separator but does not reduce inside the kernel). -/
def splitOnDot (s : String) : List String :=
  (s.toList.foldr
    (fun c acc =>
      match acc with
      | [] => [[c]]
      | p :: ps => if c = '.' then [] :: p :: ps else (c :: p) :: ps)
    [[]]).map (fun cs => String.mk cs)

/-- The body of the `auditsToAssert` enumeration in
`resolveAssertionOptionsAndLhrs`: split the normalized key on dots, pick a
metadata instance (preferring a failing one), and extract a documentation
link from the description's markdown links. -/
def makeAuditToAssert (ext : Externals) (lhrs : List LHR) (assertionKey : String) : AuditToAssert :=
  let parts := splitOnDot assertionKey
  let auditId := parts.headD ""
  let rest := parts.tail
  let auditInstances := lhrs.filterMap (fun lhr => lhr.audits.lookup auditId)
  let failedAudit := auditInstances.find? (fun audit => audit.score ≠ some 1)
  let audit := (failedAudit.orElse (fun _ => auditInstances.head?)).getD emptyAudit
  let auditTitle := audit.title
  let auditDocumentationLinkMatches :=
    ((ext.splitMarkdownLink (audit.description.getD "")).map
      (fun segment => if segment.isLink then segment.linkHref.getD "" else "")).filter
      (fun link => containsSubstring link "web.dev" ||
        containsSubstring link "developers.google.com/web")
  let auditDocumentationLink := auditDocumentationLinkMatches.head?
  { assertionKey := assertionKey, auditId := auditId, auditTitle := auditTitle,
    auditDocumentationLink := auditDocumentationLink,
    auditProperty := if rest.isEmpty then none else some rest }

/-- The record returned by `resolveAssertionOptionsAndLhrs`. -/
structure ResolvedOptions where
  assertions : List (String × AssertionValue)
  auditsToAssert : List AuditToAssert
  medianLhrs : List LHR
  aggregationMethod : Option AggregationMethod
  lhrs : List LHR
  url : String

/-- The body of `resolveAssertionOptionsAndLhrs` after preset resolution:
URL-pattern filtering, the one-URL check and the `auditsToAssert`
enumeration over the already-merged `optionsToUse`. -/
def resolveWithOptions (ext : Externals) (optionsToUse : BaseOptions)
    (unfilteredLhrs : List LHR) : Except String ResolvedOptions :=
  let assertions := optionsToUse.assertions.getD []
  let lhrs :=
    match optionsToUse.matchingUrlPattern with
    | none => unfilteredLhrs
    | some urlPattern =>
      if urlPattern = "" then unfilteredLhrs
      else unfilteredLhrs.filter (fun lhr => ext.regexTest urlPattern lhr.finalUrl)
  let uniqueURLs := dedupKeepFirst (lhrs.map (fun lhr => lhr.finalUrl))
  if uniqueURLs.length > 1 then .error "Can only assert one URL at a time!"
  else
    let medianLhrs := ext.computeRepresentativeRuns [lhrs.map (fun lhr => (lhr, lhr))]
    let auditsToAssert :=
      (dedupKeepFirst ((assertions.map Prod.fst).map kebabCase)).map (makeAuditToAssert ext lhrs)
    .ok { assertions := assertions, auditsToAssert := auditsToAssert,
          medianLhrs := medianLhrs, aggregationMethod := optionsToUse.aggregationMethod,
          lhrs := lhrs, url := ((lhrs.head?).map (fun lhr => lhr.finalUrl)).getD "" }

/-- `resolveAssertionOptionsAndLhrs`: preset resolution, URL-pattern
filtering, the one-URL invariant check, representative-run precomputation and
the `auditsToAssert` enumeration. A missing preset module
(`require` failure) and the multi-URL case are the two error exits. -/
def resolveAssertionOptionsAndLhrs (ext : Externals) (baseOptions : BaseOptions)
    (unfilteredLhrs : List LHR) : Except String ResolvedOptions :=
  let preset := baseOptions.preset.getD ""
  let optionOverrides : BaseOptions := { baseOptions with preset := none }
  match presetTarget preset with
  | none => resolveWithOptions ext optionOverrides unfilteredLhrs
  | some name =>
    match ext.presetLookup name with
    | none => .error ("Cannot find module ./presets/" ++ name ++ ".js")
    | some presetData =>
      resolveWithOptions ext (mergeBaseOptions presetData optionOverrides) unfilteredLhrs

/-- The final output record (`AssertionResult`). -/
structure AssertionResult where
  url : String
  name : AssertionType
  operator : String
  expected : ℚ
  actual : ℚ
  values : List ℚ
  level : Option String := none
  auditId : Option String := none
  auditProperty : Option String := none
  auditTitle : Option String := none
  auditDocumentationLink : Option String := none
deriving DecidableEq

/-- The per-violation annotation step at the end of
`getAllFilteredAssertionResults`: copy the result, attach `auditId`, `level`
and `url`, and attach title/documentation link only when truthy. -/
def annotateResult (auditToAssert : AuditToAssert) (level : String) (url : String)
    (result : AssertionResultNoURL) : AssertionResult :=
  { url := url, name := result.name, operator := result.operator,
    expected := result.expected, actual := result.actual, values := result.values,
    auditProperty := result.auditProperty,
    auditId := some auditToAssert.auditId, level := some level,
    auditTitle := if truthyStringOpt auditToAssert.auditTitle then auditToAssert.auditTitle else none,
    auditDocumentationLink :=
      if truthyStringOpt auditToAssert.auditDocumentationLink then
        auditToAssert.auditDocumentationLink
      else none }

/-- One iteration of the audits-to-assert loop of
`getAllFilteredAssertionResults`: skip if the configured level is `'off'`,
merge the outer aggregation default under any per-assertion override, pick
the representative-run report set for `'median-run'`, dispatch, annotate. -/
def assertAuditStep (resolved : ResolvedOptions)
    (results : List AssertionResult) (auditToAssert : AuditToAssert) :
    Except String (List AssertionResult) :=
  let levelAndOptions := normalizeAssertion (resolved.assertions.lookup auditToAssert.assertionKey)
  let level := levelAndOptions.1
  let assertionOptions := levelAndOptions.2
  if level = "off" then .ok results
  else
    let options : AssertionOptions :=
      { assertionOptions with
        aggregationMethod :=
          assertionOptions.aggregationMethod.orElse (fun _ => resolved.aggregationMethod) }
    let lhrsToUseForAudit :=
      if options.aggregationMethod = some .medianRun then resolved.medianLhrs else resolved.lhrs
    let auditResults := lhrsToUseForAudit.map (fun lhr => lhr.audits.lookup auditToAssert.auditId)
    match getAssertionResultsForAudit auditToAssert.auditId auditToAssert.auditProperty
        auditResults options resolved.lhrs with
    | .error e => .error e
    | .ok assertionResults =>
      .ok (results ++ assertionResults.map (annotateResult auditToAssert level resolved.url))

/-- `getAllFilteredAssertionResults`: resolve, then evaluate every enumerated
audit via `assertAuditStep`. -/
def getAllFilteredAssertionResults (ext : Externals) (baseOptions : BaseOptions)
    (unfilteredLhrs : List LHR) : Except String (List AssertionResult) :=
  match resolveAssertionOptionsAndLhrs ext baseOptions unfilteredLhrs with
  | .error e => .error e
  | .ok resolved =>
    if resolved.lhrs.isEmpty then .ok []
    else resolved.auditsToAssert.foldlM (assertAuditStep resolved) []

/-- The full top-level configuration (`LHCI.AssertCommand.Options`). -/
structure AssertCommandOptions where
  preset : Option String := none
  assertions : Option (List (String × AssertionValue)) := none
  matchingUrlPattern : Option String := none
  aggregationMethod : Option AggregationMethod := none
  budgetsFile : Option String := none
  assertMatrix : Option (List BaseOptions) := none

/-- The top-level options without `assertMatrix`, as consumed per matrix entry. -/
def AssertCommandOptions.toBaseOptions (options : AssertCommandOptions) : BaseOptions :=
  { preset := options.preset, assertions := options.assertions,
    matchingUrlPattern := options.matchingUrlPattern,
    aggregationMethod := options.aggregationMethod, budgetsFile := options.budgetsFile }

/-- Modelled from the spec: `_.groupBy` (in `packages/utils/src/lodash.js`,
not part of the given source) groups a list by a key, preserving first-seen
order of group keys (§6); here specialized to grouping reports by `finalUrl`. -/
def groupByUrl (lhrs : List LHR) : List (List LHR) :=
  (dedupKeepFirst (lhrs.map (fun lhr => lhr.finalUrl))).map
    (fun url => lhrs.filter (fun lhr => lhr.finalUrl = url))

/-- The per-matrix-entry body of the orchestrator's inner loop. -/
def assertOptionsStep (ext : Externals) (lhrSet : List LHR)
    (results : List AssertionResult) (baseOptions : BaseOptions) :
    Except String (List AssertionResult) :=
  match getAllFilteredAssertionResults ext baseOptions lhrSet with
  | .error e => .error e
  | .ok groupResults => .ok (results ++ groupResults)

/-- The per-URL-group body of the orchestrator's outer loop. -/
def assertGroupStep (ext : Externals) (arrayOfOptions : List BaseOptions)
    (results : List AssertionResult) (lhrSet : List LHR) :
    Except String (List AssertionResult) :=
  arrayOfOptions.foldlM (assertOptionsStep ext lhrSet) results

/-- `getAllAssertionResults`: the top-level orchestrator. Note the
`assertMatrix` exclusivity check tests only `assertions`, `preset`,
`budgetsFile` and `aggregationMethod` (with JS truthiness: an empty preset or
budgets-file string is falsy, a present-but-empty assertions object is
truthy); `matchingUrlPattern` is not tested. -/
def getAllAssertionResults (ext : Externals) (options : AssertCommandOptions)
    (lhrs : List LHR) : Except String (List AssertionResult) :=
  let groupedByURL := groupByUrl lhrs
  let arrayOfOptionsE : Except String (List BaseOptions) :=
    match options.assertMatrix with
    | some matrix =>
      if options.assertions.isSome || truthyStringOpt options.preset ||
          truthyStringOpt options.budgetsFile || options.aggregationMethod.isSome then
        .error "Cannot use assertMatrix with other options"
      else .ok matrix
    | none => .ok [options.toBaseOptions]
  match arrayOfOptionsE with
  | .error e => .error e
  | .ok arrayOfOptions =>
    groupedByURL.foldlM (assertGroupStep ext arrayOfOptions) []

/-! ### Helper lemmas about `List.min?` / `List.max?` over `ℚ` -/

theorem foldl_min_spec (xs : List ℚ) :
    ∀ x : ℚ, (xs.foldl min x ∈ x :: xs) ∧ ∀ b ∈ x :: xs, xs.foldl min x ≤ b := by
  induction xs with
  | nil => intro x; simp
  | cons y ys ih =>
    intro x
    have h := ih (min x y)
    constructor
    · rcases List.mem_cons.mp h.1 with h1 | h1
      · rcases min_choice x y with hc | hc
        · simp only [List.foldl_cons]
          rw [h1, hc]; exact List.mem_cons_self _ _
        · simp only [List.foldl_cons]
          rw [h1, hc]; exact List.mem_cons_of_mem _ (List.mem_cons_self _ _)
      · simp only [List.foldl_cons]
        exact List.mem_cons_of_mem _ (List.mem_cons_of_mem _ h1)
    · intro b hb
      simp only [List.foldl_cons]
      rcases List.mem_cons.mp hb with rfl | hb'
      · exact le_trans (h.2 _ (List.mem_cons_self _ _)) (min_le_left _ _)
      · rcases List.mem_cons.mp hb' with rfl | hb''
        · exact le_trans (h.2 _ (List.mem_cons_self _ _)) (min_le_right _ _)
        · exact h.2 _ (List.mem_cons_of_mem _ hb'')

theorem foldl_max_spec (xs : List ℚ) :
    ∀ x : ℚ, (xs.foldl max x ∈ x :: xs) ∧ ∀ b ∈ x :: xs, b ≤ xs.foldl max x := by
  induction xs with
  | nil => intro x; simp
  | cons y ys ih =>
    intro x
    have h := ih (max x y)
    constructor
    · rcases List.mem_cons.mp h.1 with h1 | h1
      · rcases max_choice x y with hc | hc
        · simp only [List.foldl_cons]
          rw [h1, hc]; exact List.mem_cons_self _ _
        · simp only [List.foldl_cons]
          rw [h1, hc]; exact List.mem_cons_of_mem _ (List.mem_cons_self _ _)
      · simp only [List.foldl_cons]
        exact List.mem_cons_of_mem _ (List.mem_cons_of_mem _ h1)
    · intro b hb
      simp only [List.foldl_cons]
      rcases List.mem_cons.mp hb with rfl | hb'
      · exact le_trans (le_max_left _ _) (h.2 _ (List.mem_cons_self _ _))
      · rcases List.mem_cons.mp hb' with rfl | hb''
        · exact le_trans (le_max_right _ _) (h.2 _ (List.mem_cons_self _ _))
        · exact h.2 _ (List.mem_cons_of_mem _ hb'')

theorem min?_spec (l : List ℚ) (hne : l ≠ []) :
    ∃ a, l.min? = some a ∧ a ∈ l ∧ ∀ b ∈ l, a ≤ b := by
  match l, hne with
  | x :: xs, _ => exact ⟨xs.foldl min x, rfl, (foldl_min_spec xs x).1, (foldl_min_spec xs x).2⟩

theorem max?_spec (l : List ℚ) (hne : l ≠ []) :
    ∃ a, l.max? = some a ∧ a ∈ l ∧ ∀ b ∈ l, b ≤ a := by
  match l, hne with
  | x :: xs, _ => exact ⟨xs.foldl max x, rfl, (foldl_max_spec xs x).1, (foldl_max_spec xs x).2⟩

/-- The spec's arithmetic median (§4.2): sort ascending, take the middle
element when the count is odd, and the average of the two middle elements
when it is even. Stated from the spec's words, for comparison with the
source's floor-indexed implementation. -/
def specMedian (values : List ℚ) : ℚ :=
  let sorted := List.insertionSort (fun a b => a ≤ b) values
  if values.length % 2 = 1 then sorted.getD (values.length / 2) 0
  else (sorted.getD (values.length / 2 - 1) 0 + sorted.getD (values.length / 2) 0) / 2

/-- C4: for every non-empty sequence of finite numbers, aggregation with
method `median` returns the standard median — the middle element of the
ascending sort for odd length, the average of the two middle elements for
even length. -/
theorem C4_median_is_standard (values : List ℚ) (assertionType : AssertionType)
    (hne : values ≠ []) :
    getValueForAggregationMethod values .median assertionType = specMedian values := by
  have hn : values.length ≠ 0 := fun h => hne (List.length_eq_zero.mp h)
  simp only [getValueForAggregationMethod, specMedian, reduceIte]
  by_cases h2 : values.length % 2 = 1
  · simp only [if_pos h2]
    congr 1
    omega
  · simp only [if_neg h2]
    have e1 : (values.length - 1) / 2 = values.length / 2 - 1 := by omega
    have e2 : values.length / 2 - 1 + 1 = values.length / 2 := by omega
    rw [e1, e2]

/-- Witness for C4 at the concrete list `[3, 1, 2]`, whose median is 2. -/
theorem C4_median_is_standard_witness :
    getValueForAggregationMethod [3, 1, 2] .median .minScore = specMedian [3, 1, 2] ∧
      specMedian [3, 1, 2] = 2 :=
  ⟨C4_median_is_standard [3, 1, 2] .minScore (by decide), by decide⟩

/-- C5: for every non-empty value sequence, `optimistic`/`pessimistic`
aggregation returns the minimum of the values exactly when (optimistic and a
"max" kind, i.e. `maxLength`/`maxNumericValue`) or (pessimistic and the
"min" kind `minScore`), and the maximum in every other case — stated via the
order-theoretic characterization of minimum and maximum. -/
theorem C5_optimistic_pessimistic (values : List ℚ) (aggregationMethod : AggregationMethod)
    (assertionType : AssertionType) (hne : values ≠ [])
    (hm : aggregationMethod = .optimistic ∨ aggregationMethod = .pessimistic) :
    (((aggregationMethod = .optimistic ∧
          (assertionType = .maxLength ∨ assertionType = .maxNumericValue)) ∨
        (aggregationMethod = .pessimistic ∧ assertionType = .minScore)) →
      getValueForAggregationMethod values aggregationMethod assertionType ∈ values ∧
        ∀ v ∈ values, getValueForAggregationMethod values aggregationMethod assertionType ≤ v) ∧
    ((¬ ((aggregationMethod = .optimistic ∧
          (assertionType = .maxLength ∨ assertionType = .maxNumericValue)) ∨
        (aggregationMethod = .pessimistic ∧ assertionType = .minScore))) →
      getValueForAggregationMethod values aggregationMethod assertionType ∈ values ∧
        ∀ v ∈ values, v ≤ getValueForAggregationMethod values aggregationMethod assertionType) := by
  have hnm : ¬ (aggregationMethod = AggregationMethod.median) := by
    rcases hm with rfl | rfl <;> simp
  have hiff : ((aggregationMethod = .optimistic ∧ strStartsWith assertionType.name "max") ∨
      (aggregationMethod = .pessimistic ∧ strStartsWith assertionType.name "min")) ↔
      ((aggregationMethod = .optimistic ∧
          (assertionType = .maxLength ∨ assertionType = .maxNumericValue)) ∨
        (aggregationMethod = .pessimistic ∧ assertionType = .minScore)) := by
    cases assertionType with
    | auditRan =>
      simp [AssertionType.name, show strStartsWith "auditRan" "max" = false from by decide,
        show strStartsWith "auditRan" "min" = false from by decide]
    | minScore =>
      simp [AssertionType.name, show strStartsWith "minScore" "max" = false from by decide,
        show strStartsWith "minScore" "min" = true from by decide]
    | maxLength =>
      simp [AssertionType.name, show strStartsWith "maxLength" "max" = true from by decide,
        show strStartsWith "maxLength" "min" = false from by decide]
    | maxNumericValue =>
      simp [AssertionType.name, show strStartsWith "maxNumericValue" "max" = true from by decide,
        show strStartsWith "maxNumericValue" "min" = false from by decide]
  constructor
  · intro h
    have huse := hiff.mpr h
    obtain ⟨a, ha, hmem, hle⟩ := min?_spec values hne
    simp only [getValueForAggregationMethod, if_neg hnm, if_pos huse, ha, Option.getD_some]
    exact ⟨hmem, hle⟩
  · intro h
    have huse : ¬ ((aggregationMethod = .optimistic ∧ strStartsWith assertionType.name "max") ∨
        (aggregationMethod = .pessimistic ∧ strStartsWith assertionType.name "min")) :=
      fun hc => h (hiff.mp hc)
    obtain ⟨a, ha, hmem, hle⟩ := max?_spec values hne
    simp only [getValueForAggregationMethod, if_neg hnm, if_neg huse, ha, Option.getD_some]
    exact ⟨hmem, hle⟩

/-- Witness for C5: optimistic aggregation of a "max" kind picks the minimum
of `[1, 3]`. -/
theorem C5_optimistic_pessimistic_witness :
    getValueForAggregationMethod [1, 3] .optimistic .maxNumericValue ∈ [(1 : ℚ), 3] ∧
      ∀ v ∈ [(1 : ℚ), 3], getValueForAggregationMethod [1, 3] .optimistic .maxNumericValue ≤ v :=
  (C5_optimistic_pessimistic [1, 3] .optimistic .maxNumericValue (by decide) (Or.inl rfl)).1
    (Or.inl ⟨rfl, Or.inr rfl⟩)

/-! ### Characterization of the generic evaluator -/

/-- The audit-did-not-run failure record emitted by `getAssertionResult`. -/
def auditRanFailureRecord (assertionType : AssertionType) (auditResults : List AuditResult) :
    AssertionResultNoURL :=
  { name := .auditRan, expected := 1, actual := 0,
    values := didRunValues assertionType auditResults, operator := "==" }

/-- The kind-specific violation record emitted by `getAssertionResult`. -/
def kindViolationRecord (auditResults : List AuditResult) (aggregationMethod : AggregationMethod)
    (assertionType : AssertionType) (expectedValue : ℚ) : AssertionResultNoURL :=
  { name := assertionType, expected := expectedValue,
    actual := getValueForAggregationMethod (finiteValues assertionType auditResults)
      aggregationMethod assertionType,
    values := finiteValues assertionType auditResults,
    operator := (AUDIT_TYPE_OPERATORS assertionType).operator }

theorem getAssertionResult_pos {a : List AuditResult} {m : AggregationMethod}
    {t : AssertionType} {e : ℚ} (h : measurementFailed a m t) :
    getAssertionResult a m t e = [auditRanFailureRecord t a] := by
  simp only [getAssertionResult, auditRanFailureRecord, if_pos h]

theorem getAssertionResult_neg {a : List AuditResult} {m : AggregationMethod}
    {t : AssertionType} {e : ℚ} (h : ¬ measurementFailed a m t) :
    getAssertionResult a m t e =
      if (AUDIT_TYPE_OPERATORS t).passesFn
          (getValueForAggregationMethod (finiteValues t a) m t) e then []
      else [kindViolationRecord a m t e] := by
  simp only [getAssertionResult, kindViolationRecord, if_neg h]

theorem mem_getAssertionResult {r : AssertionResultNoURL} {a : List AuditResult}
    {m : AggregationMethod} {t : AssertionType} {e : ℚ}
    (h : r ∈ getAssertionResult a m t e) :
    (measurementFailed a m t ∧ r = auditRanFailureRecord t a) ∨
    (¬ measurementFailed a m t ∧ r = kindViolationRecord a m t e ∧
      (AUDIT_TYPE_OPERATORS t).passesFn
        (getValueForAggregationMethod (finiteValues t a) m t) e = false) := by
  by_cases hc : measurementFailed a m t
  · rw [getAssertionResult_pos hc] at h
    exact Or.inl ⟨hc, List.mem_singleton.mp h⟩
  · rw [getAssertionResult_neg hc] at h
    by_cases hp : (AUDIT_TYPE_OPERATORS t).passesFn
        (getValueForAggregationMethod (finiteValues t a) m t) e = true
    · rw [if_pos hp] at h
      simp at h
    · rw [if_neg hp] at h
      exact Or.inr ⟨hc, List.mem_singleton.mp h, by simpa using hp⟩

theorem getAssertionResult_operator_consistent {a : List AuditResult} {m : AggregationMethod}
    {t : AssertionType} {e : ℚ} (r : AssertionResultNoURL) (h : r ∈ getAssertionResult a m t e) :
    r.operator = (AUDIT_TYPE_OPERATORS r.name).operator := by
  rcases mem_getAssertionResult h with ⟨_, rfl⟩ | ⟨_, rfl, _⟩ <;> rfl

theorem getAssertionResult_name {a : List AuditResult} {m : AggregationMethod}
    {t : AssertionType} {e : ℚ} (r : AssertionResultNoURL) (h : r ∈ getAssertionResult a m t e) :
    r.name = .auditRan ∨ r.name = t := by
  rcases mem_getAssertionResult h with ⟨_, rfl⟩ | ⟨_, rfl, _⟩
  · exact Or.inl rfl
  · exact Or.inr rfl

theorem filterMap_id_length_ne {α : Type} {l : List (Option α)} :
    (l.filterMap id).length ≠ l.length ↔ ∃ v ∈ l, v = none := by
  induction l with
  | nil => simp
  | cons x xs ih =>
    cases x with
    | none =>
      have hle := List.length_filterMap_le (id : Option α → Option α) xs
      simp [List.filterMap_cons]
      omega
    | some a => simp [List.filterMap_cons, ih]

theorem filterMap_id_length_eq {α : Type} {l : List (Option α)}
    (h : l.any (fun v => v.isNone) = false) : (l.filterMap id).length = l.length := by
  by_contra hne
  obtain ⟨v, hv, hveq⟩ := filterMap_id_length_ne.mp hne
  subst hveq
  have h2 : l.any (fun v => v.isNone) = true := List.any_eq_true.mpr ⟨none, hv, by simp⟩
  rw [h] at h2
  exact Bool.false_ne_true h2

theorem measurementFailed_iff (a : List AuditResult) (m : AggregationMethod)
    (t : AssertionType) :
    measurementFailed a m t ↔
      ((finiteValues t a = [] ∧ m ≠ .pessimistic) ∨
        ((∃ v ∈ rawValues t a, v = none) ∧ m = .pessimistic)) := by
  unfold measurementFailed
  constructor
  · rintro (⟨h1, h2⟩ | ⟨h1, h2⟩)
    · exact Or.inl ⟨List.length_eq_zero.mp h1, h2⟩
    · exact Or.inr ⟨filterMap_id_length_ne.mp h1, h2⟩
  · rintro (⟨h1, h2⟩ | ⟨h1, h2⟩)
    · exact Or.inl ⟨by rw [h1]; rfl, h2⟩
    · exact Or.inr ⟨filterMap_id_length_ne.mpr h1, h2⟩

/-- C3: `getAssertionResult` returns exactly one `auditRan` violation with
`expected = 1`, `actual = 0` and the per-report 1/0 measurement marks —
skipping the kind-specific comparison — if and only if either no finite raw
value exists and the method is not `pessimistic`, or at least one raw value
is non-finite and the method is `pessimistic`. -/
theorem C3_failure_to_measure (a : List AuditResult) (m : AggregationMethod)
    (t : AssertionType) (e : ℚ) (ht : t ≠ .auditRan) :
    ((∃ r ∈ getAssertionResult a m t e, r.name = .auditRan) ↔
      ((finiteValues t a = [] ∧ m ≠ .pessimistic) ∨
        ((∃ v ∈ rawValues t a, v = none) ∧ m = .pessimistic))) ∧
    (measurementFailed a m t →
      getAssertionResult a m t e =
        [{ name := .auditRan, expected := 1, actual := 0,
           values := (rawValues t a).map (fun v => if v.isSome then 1 else 0),
           operator := "==" }]) := by
  have hdid : didRunValues t a = (rawValues t a).map (fun v => if v.isSome then 1 else 0) := rfl
  constructor
  · constructor
    · rintro ⟨r, hr, hname⟩
      rcases mem_getAssertionResult hr with ⟨hc, rfl⟩ | ⟨hc, rfl, hp⟩
      · exact (measurementFailed_iff a m t).mp hc
      · exact absurd hname ht
    · intro hcond
      have hc := (measurementFailed_iff a m t).mpr hcond
      refine ⟨auditRanFailureRecord t a, ?_, rfl⟩
      rw [getAssertionResult_pos hc]
      exact List.mem_singleton.mpr rfl
  · intro hc
    rw [getAssertionResult_pos hc]
    unfold auditRanFailureRecord
    rw [hdid]

/-- Witness for C3 at the empty report list with `optimistic` aggregation. -/
theorem C3_failure_to_measure_witness :
    ((∃ r ∈ getAssertionResult [] .optimistic .minScore 1, r.name = .auditRan) ↔
      ((finiteValues .minScore [] = [] ∧ AggregationMethod.optimistic ≠ .pessimistic) ∨
        ((∃ v ∈ rawValues .minScore [], v = none) ∧ AggregationMethod.optimistic = .pessimistic))) ∧
    (measurementFailed [] .optimistic .minScore →
      getAssertionResult [] .optimistic .minScore 1 =
        [{ name := .auditRan, expected := 1, actual := 0,
           values := (rawValues .minScore []).map (fun v => if v.isSome then 1 else 0),
           operator := "==" }]) :=
  C3_failure_to_measure [] .optimistic .minScore 1 (by decide)

/-- C2 counterexample: two reports are considered (one with score 0, one with
no measurable value), the aggregation method is `optimistic`, and the
resulting `minScore` violation's `values` sequence has only one entry — the
filtered finite values, not one entry per report considered. -/
theorem C2_counterexample :
    ([{ score := some 0 }, ({} : AuditResult)] : List AuditResult).length = 2 ∧
    (getAssertionResult [{ score := some 0 }, {}] .optimistic .minScore 1).map
        (fun r => r.values.length) = [1] := by
  constructor
  · rfl
  · decide

theorem mem_manualAssertionResults {r : AssertionResultNoURL} {a : List AuditResult}
    {o : AssertionOptions} {m : AggregationMethod} (h : r ∈ manualAssertionResults a o m) :
    (∃ v, o.maxLength = some v ∧ r ∈ getAssertionResult a m .maxLength v) ∨
    (∃ v, o.maxNumericValue = some v ∧ r ∈ getAssertionResult a m .maxNumericValue v) := by
  unfold manualAssertionResults at h
  rcases List.mem_append.mp h with h | h
  · cases ho : o.maxLength with
    | none => rw [ho] at h; simp at h
    | some v => rw [ho] at h; exact Or.inl ⟨v, rfl, h⟩
  · cases ho : o.maxNumericValue with
    | none => rw [ho] at h; simp at h
    | some v => rw [ho] at h; exact Or.inr ⟨v, rfl, h⟩

/-- C2 amended: an `auditRan` result's `values` sequence has one entry per
report considered, but a kind-specific violation's `values` sequence is the
filtered finite-value list — one entry per report whose raw value was finite,
with non-finite reports omitted. -/
theorem C2_values_per_report :
    (∀ (a : List AuditResult) (m : AggregationMethod) (t : AssertionType) (e : ℚ),
      ∀ r ∈ getAssertionResult a m t e,
        (r.name = .auditRan → r.values.length = a.length) ∧
        (r.name ≠ .auditRan → r.values = finiteValues t a)) ∧
    (∀ (pos : List (Option AuditResult)) (opts : AssertionOptions),
      ∀ r ∈ getAssertionResults pos opts,
        r.name = .auditRan → r.values.length = pos.length) := by
  have hlen : ∀ (t : AssertionType) (a : List AuditResult),
      (didRunValues t a).length = a.length := by
    intro t a
    simp [didRunValues, rawValues]
  have hfin : ∀ (a : List AuditResult), (finiteValues .auditRan a).length = a.length := by
    intro a
    induction a with
    | nil => rfl
    | cons x xs ih =>
      have hstep : finiteValues .auditRan (x :: xs) = 1 :: finiteValues .auditRan xs := rfl
      rw [hstep, List.length_cons, List.length_cons, ih]
  have h1 : ∀ (a : List AuditResult) (m : AggregationMethod) (t : AssertionType) (e : ℚ),
      ∀ r ∈ getAssertionResult a m t e,
        (r.name = .auditRan → r.values.length = a.length) ∧
        (r.name ≠ .auditRan → r.values = finiteValues t a) := by
    intro a m t e r hr
    rcases mem_getAssertionResult hr with ⟨hc, rfl⟩ | ⟨hc, rfl, hp⟩
    · exact ⟨fun _ => hlen t a, fun hne => absurd rfl hne⟩
    · constructor
      · intro hname
        have ht : t = .auditRan := hname
        subst ht
        exact hfin a
      · intro _
        rfl
  refine ⟨h1, ?_⟩
  intro pos opts r hr hname
  by_cases hany : pos.any (fun result => result.isNone) = true
  · rw [getAssertionResults] at hr
    rw [if_pos hany] at hr
    rw [List.mem_singleton.mp hr]
    simp
  · have hany' : pos.any (fun result => result.isNone) = false := Bool.eq_false_iff.mpr hany
    rw [getAssertionResults] at hr
    rw [if_neg (by simp [hany'])] at hr
    have hflen : (pos.filterMap id).length = pos.length := filterMap_id_length_eq hany'
    rcases List.mem_append.mp hr with hm | hm
    · rcases mem_manualAssertionResults hm with ⟨v, hv, hmem⟩ | ⟨v, hv, hmem⟩ <;>
        rw [(h1 _ _ _ _ r hmem).1 hname, hflen]
    · rcases hms : (if opts.minScore.isNone && !(opts.maxLength.isSome || opts.maxNumericValue.isSome)
          then some 1 else opts.minScore) with _ | v
      · rw [hms] at hm
        simp at hm
      · rw [hms] at hm
        rw [(h1 _ _ _ _ r hm).1 hname, hflen]

/-- Witness for C2's amended statement at a concrete mixed input. -/
theorem C2_values_per_report_witness :
    ∀ r ∈ getAssertionResult [{ score := some 0 }, {}] .optimistic .minScore 1,
      (r.name = .auditRan → r.values.length = ([{ score := some 0 }, {}] : List AuditResult).length) ∧
      (r.name ≠ .auditRan → r.values = finiteValues .minScore [{ score := some 0 }, {}]) :=
  C2_values_per_report.1 [{ score := some 0 }, {}] .optimistic .minScore 1

/-- C1 counterexample: the `auditRan` violation produced by
`getAssertionResults` for an undefined audit result carries operator `'>='`,
not the `'=='` that `AUDIT_TYPE_OPERATORS` defines for `auditRan`. -/
theorem C1_counterexample :
    (getAssertionResults [none] {}).map (fun r => (r.name, r.operator)) =
      [(.auditRan, ">=")] ∧
    (AUDIT_TYPE_OPERATORS .auditRan).operator = "==" := by
  constructor
  · decide
  · rfl

/-- C6: with all audit results defined, the `minScore` assertion is evaluated
with expected value 1 when no manual (`maxLength`/`maxNumericValue`)
assertion is configured and `minScore` is absent; with the explicit value
when `minScore` is set; and not at all when `minScore` is absent but a manual
assertion was configured. -/
theorem C6_implicit_minScore (pos : List (Option AuditResult)) (opts : AssertionOptions)
    (hdef : pos.any (fun result => result.isNone) = false) :
    (opts.maxLength = none → opts.maxNumericValue = none → opts.minScore = none →
      getAssertionResults pos opts =
        getAssertionResult (pos.filterMap id) (opts.aggregationMethod.getD .optimistic)
          .minScore 1) ∧
    (∀ s, opts.minScore = some s →
      getAssertionResults pos opts =
        manualAssertionResults (pos.filterMap id) opts (opts.aggregationMethod.getD .optimistic) ++
          getAssertionResult (pos.filterMap id) (opts.aggregationMethod.getD .optimistic)
            .minScore s) ∧
    (opts.minScore = none → (opts.maxLength.isSome ∨ opts.maxNumericValue.isSome) →
      (getAssertionResults pos opts =
        manualAssertionResults (pos.filterMap id) opts (opts.aggregationMethod.getD .optimistic) ∧
      ∀ r ∈ getAssertionResults pos opts, r.name ≠ .minScore)) := by
  have hbody : getAssertionResults pos opts =
      manualAssertionResults (pos.filterMap id) opts (opts.aggregationMethod.getD .optimistic) ++
        (match (if opts.minScore.isNone &&
            !(opts.maxLength.isSome || opts.maxNumericValue.isSome) then some 1
            else opts.minScore) with
         | some v => getAssertionResult (pos.filterMap id)
             (opts.aggregationMethod.getD .optimistic) .minScore v
         | none => []) := by
    rw [getAssertionResults, if_neg (by simp [hdef])]
  refine ⟨?_, ?_, ?_⟩
  · intro h1 h2 h3
    rw [hbody, manualAssertionResults, h1, h2, h3]
    simp
  · intro s hs
    rw [hbody, hs]
    have : (if (some s : Option ℚ).isNone &&
        !(opts.maxLength.isSome || opts.maxNumericValue.isSome) then some 1
        else (some s : Option ℚ)) = some s := by simp
    rw [this]
  · intro h1 h2
    have hmanual : (opts.maxLength.isSome || opts.maxNumericValue.isSome) = true := by
      rcases h2 with h2 | h2 <;> simp [h2]
    have hreal : (if opts.minScore.isNone &&
        !(opts.maxLength.isSome || opts.maxNumericValue.isSome) then some 1
        else opts.minScore) = none := by
      rw [hmanual, h1]
      rfl
    have heq : getAssertionResults pos opts =
        manualAssertionResults (pos.filterMap id) opts (opts.aggregationMethod.getD .optimistic) := by
      rw [hbody, hreal]
      simp
    refine ⟨heq, ?_⟩
    intro r hr
    rw [heq] at hr
    rcases mem_manualAssertionResults hr with ⟨v, hv, hmem⟩ | ⟨v, hv, hmem⟩ <;>
      rcases getAssertionResult_name r hmem with hn | hn <;> simp [hn]

/-- Witness for C6: an empty options object implies the default
`minScore = 1` evaluation. -/
theorem C6_implicit_minScore_witness :
    getAssertionResults [some {}] {} =
      getAssertionResult ([some ({} : AuditResult)].filterMap id)
        ((({} : AssertionOptions)).aggregationMethod.getD .optimistic) .minScore 1 :=
  (C6_implicit_minScore [some {}] {} (by decide)).1 rfl rfl rfl

/-- C9: evaluating a `categories` assertion whose property path length is not
exactly 1 raises the configuration error naming the invalid key (and hence
produces no assertion results). -/
theorem C9_category_property_arity (l : List String) (opts : AssertionOptions)
    (auditResults : List (Option AuditResult)) (lhrs : List LHR) (hlen : l.length ≠ 1) :
    getAssertionResultsForAudit "categories" (some l) auditResults opts lhrs =
      .error ("Invalid resource-summary assertion \"" ++ String.intercalate "." l ++ "\"") := by
  rw [getAssertionResultsForAudit]
  rw [if_neg (by decide)]
  rw [if_pos (by decide)]
  rw [getCategoryAssertionResults, if_pos hlen]

/-- Witness for C9 at the two-segment property path `a.b`. -/
theorem C9_category_property_arity_witness :
    getAssertionResultsForAudit "categories" (some ["a", "b"]) [] {} [] =
      .error ("Invalid resource-summary assertion \"" ++ String.intercalate "." ["a", "b"] ++ "\"") :=
  C9_category_property_arity ["a", "b"] {} [] [] (by decide)

/-! ### Budget deriver: de-duplication and per-violation field origin -/

/-- The over-budget request count parsed out of `countOverBudget`
(`Number(countOverBudget.match(/\d+/)[0]) || 0`). -/
def countOverBudgetAmount (o : Option String) : ℚ :=
  ((((firstDigitRun (o.getD "")).getD "").toNat?).getD 0 : ℕ)

/-- What a budget violation emitted for `row` must look like: a tagged
`maxNumericValue` violation whose `actual` is the row's observed size
(respectively request count) and whose `expected` is `actual` minus the
over-budget amount. -/
def BudgetRowOrigin (row : DetailsItem) (r : AssertionResultNoURL) : Prop :=
  r.name = .maxNumericValue ∧ r.operator = "<=" ∧
  ((r.auditProperty = some (row.resourceType ++ ".size") ∧ r.actual = row.size ∧
      r.expected = row.size - row.sizeOverBudget.getD 0 ∧ r.values = [row.size]) ∨
   (r.auditProperty = some (row.resourceType ++ ".count") ∧ r.actual = row.requestCount ∧
      r.expected = row.requestCount - countOverBudgetAmount row.countOverBudget ∧
      r.values = [row.requestCount]))

theorem getAssertionResultsForBudgetRow_shape (key : String) (actual expected : ℚ) :
    getAssertionResultsForBudgetRow key actual expected = [] ∨
    getAssertionResultsForBudgetRow key actual expected =
      [{ name := .maxNumericValue, operator := "<=", expected := expected, actual := actual,
         values := [actual], auditProperty := some key }] := by
  have hfin : finiteValues .maxNumericValue
      [{ score := some 0, numericValue := some actual }] = [actual] := rfl
  have hnm : ¬ measurementFailed [{ score := some 0, numericValue := some actual }]
      .pessimistic .maxNumericValue := by
    unfold measurementFailed
    rw [hfin]
    simp [rawValues]
  have hval2 : getValueForAggregationMethod [actual] .pessimistic .maxNumericValue = actual := by
    simp [getValueForAggregationMethod,
      show strStartsWith (AssertionType.name .maxNumericValue) "min" = false from by decide]
  unfold getAssertionResultsForBudgetRow
  rw [getAssertionResult_neg hnm]
  rw [hfin, hval2]
  by_cases hp : (AUDIT_TYPE_OPERATORS .maxNumericValue).passesFn actual expected = true
  · rw [if_pos hp]
    exact Or.inl rfl
  · rw [if_neg hp]
    refine Or.inr ?_
    unfold kindViolationRecord
    rw [hfin, hval2]
    rfl

/-- The loop invariant of `getBudgetAssertionResults`: every accumulated
result satisfies `P` and owns a key recorded in `resultsKeys`, and the
accumulated `auditProperty` tags are pairwise distinct. -/
def BudgetAcc (P : AssertionResultNoURL → Prop)
    (acc : List AssertionResultNoURL × List String) : Prop :=
  (∀ r ∈ acc.1, P r ∧ ∃ k, r.auditProperty = some k ∧ k ∈ acc.2) ∧
  (acc.1.map (fun r => r.auditProperty)).Nodup

theorem budgetAcc_append (P : AssertionResultNoURL → Prop)
    (acc : List AssertionResultNoURL × List String) (key : String) (actual expected : ℚ)
    (hinv : BudgetAcc P acc) (hkey : ¬ key ∈ acc.2)
    (hP : ∀ r ∈ getAssertionResultsForBudgetRow key actual expected, P r) :
    BudgetAcc P (acc.1 ++ getAssertionResultsForBudgetRow key actual expected,
      acc.2 ++ [key]) := by
  rcases getAssertionResultsForBudgetRow_shape key actual expected with hsh | hsh
  · constructor
    · intro r hr
      rw [hsh, List.append_nil] at hr
      obtain ⟨hPr, k, hk1, hk2⟩ := hinv.1 r hr
      exact ⟨hPr, k, hk1, List.mem_append_left _ hk2⟩
    · rw [hsh, List.append_nil]
      exact hinv.2
  · constructor
    · intro r hr
      rw [hsh] at hr
      rcases List.mem_append.mp hr with hr | hr
      · obtain ⟨hPr, k, hk1, hk2⟩ := hinv.1 r hr
        exact ⟨hPr, k, hk1, List.mem_append_left _ hk2⟩
      · refine ⟨hP r (by rw [hsh]; exact hr), key, ?_, List.mem_append_right _ (by simp)⟩
        rw [List.mem_singleton.mp hr]
    · rw [hsh, List.map_append]
      rw [List.nodup_append]
      refine ⟨hinv.2, by simp, ?_⟩
      intro x hx hx2
      simp only [List.map_cons, List.map_nil, List.mem_singleton] at hx2
      subst hx2
      obtain ⟨r', hr', hr'prop⟩ := List.mem_map.mp hx
      obtain ⟨_, k, hk1, hk2⟩ := hinv.1 r' hr'
      rw [hr'prop] at hk1
      have : key = k := by injection hk1
      exact hkey (this ▸ hk2)

/-- The per-row obligations needed to push `P` through one loop iteration. -/
def BudgetRowHyp (P : AssertionResultNoURL → Prop) (row : DetailsItem) : Prop :=
  (∀ r ∈ getAssertionResultsForBudgetRow (row.resourceType ++ ".size") row.size
      (row.size - row.sizeOverBudget.getD 0), P r) ∧
  (∀ digits, firstDigitRun (row.countOverBudget.getD "") = some digits →
    ∀ r ∈ getAssertionResultsForBudgetRow (row.resourceType ++ ".count") row.requestCount
      (row.requestCount - (((digits.toNat?).getD 0 : ℕ) : ℚ)), P r)

theorem processBudgetRowSize_inv (P : AssertionResultNoURL → Prop)
    (acc : List AssertionResultNoURL × List String) (row : DetailsItem)
    (hinv : BudgetAcc P acc) (hrow : BudgetRowHyp P row) :
    BudgetAcc P (processBudgetRowSize acc row) := by
  unfold processBudgetRowSize
  by_cases hc : truthyNumOpt row.sizeOverBudget ∧ ¬ (row.resourceType ++ ".size") ∈ acc.2
  · rw [if_pos hc]
    exact budgetAcc_append P acc _ _ _ hinv hc.2 hrow.1
  · rw [if_neg hc]
    exact hinv

theorem processBudgetRowCount_inv (P : AssertionResultNoURL → Prop)
    (acc : List AssertionResultNoURL × List String) (row : DetailsItem)
    (hinv : BudgetAcc P acc) (hrow : BudgetRowHyp P row) :
    BudgetAcc P (processBudgetRowCount acc row) := by
  unfold processBudgetRowCount
  by_cases hc : truthyStringOpt row.countOverBudget ∧ ¬ (row.resourceType ++ ".count") ∈ acc.2
  · rw [if_pos hc]
    cases hd : firstDigitRun (row.countOverBudget.getD "") with
    | none => exact hinv
    | some digits => exact budgetAcc_append P acc _ _ _ hinv hc.2 (hrow.2 digits hd)
  · rw [if_neg hc]
    exact hinv

theorem processBudgetRow_inv (P : AssertionResultNoURL → Prop)
    (acc : List AssertionResultNoURL × List String) (row : DetailsItem)
    (hinv : BudgetAcc P acc) (hrow : BudgetRowHyp P row) :
    BudgetAcc P (processBudgetRow acc row) :=
  processBudgetRowCount_inv P _ row (processBudgetRowSize_inv P acc row hinv hrow) hrow

theorem foldl_processBudgetRow_inv (P : AssertionResultNoURL → Prop) (items : List DetailsItem) :
    ∀ acc, BudgetAcc P acc → (∀ row ∈ items, BudgetRowHyp P row) →
      BudgetAcc P (items.foldl processBudgetRow acc) := by
  induction items with
  | nil => intro acc h _; exact h
  | cons row rows ih =>
    intro acc h hrows
    rw [List.foldl_cons]
    exact ih _ (processBudgetRow_inv P acc row h (hrows row (List.mem_cons_self _ _)))
      (fun r hr => hrows r (List.mem_cons_of_mem _ hr))

theorem processBudgetAudit_inv (P : AssertionResultNoURL → Prop)
    (acc : List AssertionResultNoURL × List String) (auditResult : AuditResult)
    (hinv : BudgetAcc P acc)
    (haud : ∀ items, auditResult.detailsItems = some items → ∀ row ∈ items, BudgetRowHyp P row) :
    BudgetAcc P (processBudgetAudit acc auditResult) := by
  unfold processBudgetAudit
  cases hd : auditResult.detailsItems with
  | none => exact hinv
  | some items => exact foldl_processBudgetRow_inv P items acc hinv (haud items hd)

theorem foldl_processBudgetAudit_inv (P : AssertionResultNoURL → Prop)
    (batch : List AuditResult) :
    ∀ acc, BudgetAcc P acc →
      (∀ a ∈ batch, ∀ items, a.detailsItems = some items → ∀ row ∈ items, BudgetRowHyp P row) →
      BudgetAcc P (batch.foldl processBudgetAudit acc) := by
  induction batch with
  | nil => intro acc h _; exact h
  | cons a batch ih =>
    intro acc h hauds
    rw [List.foldl_cons]
    exact ih _ (processBudgetAudit_inv P acc a h (hauds a (List.mem_cons_self _ _)))
      (fun x hx => hauds x (List.mem_cons_of_mem _ hx))

theorem processBudgetRowSize_eq_triggers (acc : List AssertionResultNoURL × List String)
    (row : DetailsItem) :
    processBudgetRowSize acc row = (rowSizeTriggers row).foldl processTrigger acc := by
  unfold processBudgetRowSize rowSizeTriggers
  by_cases ht : truthyNumOpt row.sizeOverBudget = true
  · rw [if_pos ht, List.foldl_cons, List.foldl_nil]
    unfold processTrigger
    by_cases hm : (row.resourceType ++ ".size") ∈ acc.2
    · rw [if_neg (fun hc => hc.2 hm), if_pos hm]
    · rw [if_pos ⟨ht, hm⟩, if_neg hm]; rfl
  · rw [if_neg ht, if_neg (fun hc => ht hc.1), List.foldl_nil]

theorem processBudgetRowCount_eq_triggers (acc : List AssertionResultNoURL × List String)
    (row : DetailsItem) :
    processBudgetRowCount acc row = (rowCountTriggers row).foldl processTrigger acc := by
  unfold processBudgetRowCount rowCountTriggers
  by_cases ht : truthyStringOpt row.countOverBudget = true
  · rw [if_pos ht]
    cases hd : firstDigitRun (row.countOverBudget.getD "") with
    | none =>
      by_cases hm : (row.resourceType ++ ".count") ∈ acc.2
      · rw [if_neg (fun hc => hc.2 hm), List.foldl_nil]
      · rw [if_pos ⟨ht, hm⟩, List.foldl_nil]
    | some digits =>
      rw [List.foldl_cons, List.foldl_nil]
      unfold processTrigger
      by_cases hm : (row.resourceType ++ ".count") ∈ acc.2
      · rw [if_neg (fun hc => hc.2 hm), if_pos hm]
      · rw [if_pos ⟨ht, hm⟩, if_neg hm]; rfl
  · rw [if_neg (fun hc => ht hc.1), if_neg ht, List.foldl_nil]

theorem processBudgetRow_eq_triggers (acc : List AssertionResultNoURL × List String)
    (row : DetailsItem) :
    processBudgetRow acc row = (rowTriggers row).foldl processTrigger acc := by
  unfold processBudgetRow rowTriggers
  rw [List.foldl_append, ← processBudgetRowSize_eq_triggers, ← processBudgetRowCount_eq_triggers]

theorem foldl_flatMap_eq {α β γ : Type} (f : γ → β → γ) (g : α → List β) (l : List α) :
    ∀ init, (l.flatMap g).foldl f init = l.foldl (fun acc x => (g x).foldl f acc) init := by
  induction l with
  | nil => intro init; rfl
  | cons x xs ih =>
    intro init
    rw [List.flatMap_cons, List.foldl_append, List.foldl_cons, ih]

theorem processBudgetAudit_eq_triggers (acc : List AssertionResultNoURL × List String)
    (a : AuditResult) :
    processBudgetAudit acc a =
      ((a.detailsItems.getD []).flatMap rowTriggers).foldl processTrigger acc := by
  unfold processBudgetAudit
  cases hd : a.detailsItems with
  | none => rfl
  | some items =>
    show items.foldl processBudgetRow acc = _
    rw [foldl_flatMap_eq]
    exact List.foldl_ext _ _ acc (fun acc2 row _ => processBudgetRow_eq_triggers acc2 row)

theorem firstTriggerPerKey_cons (t : String × ℚ × ℚ) (ts : List (String × ℚ × ℚ))
    (seen : List String) :
    firstTriggerPerKey (t :: ts) seen =
      if t.1 ∈ seen then firstTriggerPerKey ts seen
      else t :: firstTriggerPerKey ts (seen ++ [t.1]) := rfl

theorem processTriggers_spec (ts : List (String × ℚ × ℚ)) :
    ∀ results keys, ts.foldl processTrigger (results, keys) =
      (results ++ (firstTriggerPerKey ts keys).flatMap evalTrigger,
       keys ++ (firstTriggerPerKey ts keys).map Prod.fst) := by
  induction ts with
  | nil => intro results keys; simp [firstTriggerPerKey]
  | cons t ts ih =>
    intro results keys
    rw [List.foldl_cons]
    by_cases hm : t.1 ∈ keys
    · have hstep : processTrigger (results, keys) t = (results, keys) := by
        simp only [processTrigger]
        rw [if_pos hm]
      rw [hstep, firstTriggerPerKey_cons, if_pos hm]
      exact ih results keys
    · have hstep : processTrigger (results, keys) t =
          (results ++ evalTrigger t, keys ++ [t.1]) := by
        simp only [processTrigger]
        rw [if_neg hm]
      rw [hstep, ih, firstTriggerPerKey_cons, if_neg hm]
      simp [List.flatMap_cons, List.append_assoc]

theorem getBudgetAssertionResults_firstTrigger (batch : List AuditResult) :
    getBudgetAssertionResults batch =
      (firstTriggerPerKey (batchTriggers batch) []).flatMap evalTrigger := by
  unfold getBudgetAssertionResults
  have h1 : batch.foldl processBudgetAudit ([], []) =
      (batchTriggers batch).foldl processTrigger ([], []) := by
    unfold batchTriggers
    rw [foldl_flatMap_eq]
    exact List.foldl_ext _ _ ([], []) (fun acc a _ => processBudgetAudit_eq_triggers acc a)
  rw [h1, processTriggers_spec, List.nil_append]

theorem getBudgetAssertionResults_characterization (batch : List AuditResult) :
    ((getBudgetAssertionResults batch).map (fun r => r.auditProperty)).Nodup ∧
    (∀ r ∈ getBudgetAssertionResults batch, ∃ a ∈ batch, ∃ items,
      a.detailsItems = some items ∧ ∃ row ∈ items, BudgetRowOrigin row r) := by
  have hfold := foldl_processBudgetAudit_inv
    (fun r => ∃ a ∈ batch, ∃ items, a.detailsItems = some items ∧
      ∃ row ∈ items, BudgetRowOrigin row r)
    batch ([], []) ⟨by simp, by simp⟩ ?_
  · exact ⟨hfold.2, fun r hr => (hfold.1 r hr).1⟩
  · intro a ha items hitems row hrowmem
    constructor
    · intro r hr
      rcases getAssertionResultsForBudgetRow_shape (row.resourceType ++ ".size") row.size
          (row.size - row.sizeOverBudget.getD 0) with hsh | hsh
      · rw [hsh] at hr
        simp at hr
      · rw [hsh] at hr
        rw [List.mem_singleton.mp hr]
        exact ⟨a, ha, items, hitems, row, hrowmem, rfl, rfl,
          Or.inl ⟨rfl, rfl, rfl, rfl⟩⟩
    · intro digits hd r hr
      rcases getAssertionResultsForBudgetRow_shape (row.resourceType ++ ".count")
          row.requestCount (row.requestCount - (((digits.toNat?).getD 0 : ℕ) : ℚ)) with hsh | hsh
      · rw [hsh] at hr
        simp at hr
      · rw [hsh] at hr
        rw [List.mem_singleton.mp hr]
        refine ⟨a, ha, items, hitems, row, hrowmem, rfl, rfl, Or.inr ⟨rfl, rfl, ?_, rfl⟩⟩
        unfold countOverBudgetAmount
        rw [hd]
        rfl

/-- C7: across a whole batch of budget audit results, at most one violation is
emitted per `"<resourceType>.size"` / `"<resourceType>.count"` key (the
emitted `auditProperty` tags are pairwise distinct), only the FIRST
encountered violation per key surfaces (the output is exactly the in-order
evaluation of the first trigger of each key, so the surfacing `actual` and
`expected` magnitudes are the first encountered row's), and each emitted
violation originates from a budget row of the batch with `actual` equal to
that row's observed size (respectively request count), `expected` equal to
`actual` minus the over-budget amount, and `auditProperty` equal to the
row's key. -/
theorem C7_budget_dedup_and_fields (batch : List AuditResult) :
    getBudgetAssertionResults batch =
      (firstTriggerPerKey (batchTriggers batch) []).flatMap evalTrigger ∧
    ((getBudgetAssertionResults batch).map (fun r => r.auditProperty)).Nodup ∧
    (∀ r ∈ getBudgetAssertionResults batch, ∃ a ∈ batch, ∃ items,
      a.detailsItems = some items ∧ ∃ row ∈ items, BudgetRowOrigin row r) :=
  ⟨getBudgetAssertionResults_firstTrigger batch,
   (getBudgetAssertionResults_characterization batch).1,
   (getBudgetAssertionResults_characterization batch).2⟩

/-- A concrete one-row budget batch: `script` resource, 500000 observed bytes,
100000 over budget. -/
def budgetWitnessAudit : AuditResult :=
  { detailsItems := some [{ resourceType := "script", size := 500000, sizeOverBudget := some 100000 }] }

/-- A second one-row budget batch entry violating the same `script.size` key:
900000 observed bytes, 300000 over budget. -/
def budgetWitnessAudit2 : AuditResult :=
  { detailsItems := some [{ resourceType := "script", size := 900000, sizeOverBudget := some 300000 }] }

/-- Witness for C7: on a two-audit batch whose rows both violate `script.size`,
the output is exactly the evaluation of the first encountered trigger — the
key survives once, with the FIRST row's actual (500000) and expected
(500000 - 100000); the second row's 900000/600000 magnitudes are suppressed —
and the emitted tags are pairwise distinct. -/
theorem C7_budget_dedup_and_fields_witness :
    getBudgetAssertionResults [budgetWitnessAudit, budgetWitnessAudit2] =
      (firstTriggerPerKey (batchTriggers [budgetWitnessAudit, budgetWitnessAudit2])
        []).flatMap evalTrigger ∧
    firstTriggerPerKey (batchTriggers [budgetWitnessAudit, budgetWitnessAudit2]) [] =
      [("script.size", 500000, 500000 - (100000 : ℚ))] ∧
    ((getBudgetAssertionResults [budgetWitnessAudit, budgetWitnessAudit2]).map
      (fun r => r.auditProperty)).Nodup :=
  ⟨(C7_budget_dedup_and_fields [budgetWitnessAudit, budgetWitnessAudit2]).1,
   rfl,
   (C7_budget_dedup_and_fields [budgetWitnessAudit, budgetWitnessAudit2]).2.1⟩

/-! ### Generic fold lemmas over `Except` and the operator/name invariant -/

theorem foldlM_except_ok_invariant {α β : Type} (P : β → Prop)
    (f : List β → α → Except String (List β)) (l : List α)
    (hstep : ∀ acc x, x ∈ l → ∀ out, f acc x = .ok out →
      (∀ r ∈ acc, P r) → ∀ r ∈ out, P r) :
    ∀ init, (∀ r ∈ init, P r) → ∀ out, l.foldlM f init = .ok out → ∀ r ∈ out, P r := by
  induction l with
  | nil =>
    intro init hinit out hout
    rw [List.foldlM_nil] at hout
    injection hout with hout
    rw [← hout]
    exact hinit
  | cons a l ih =>
    intro init hinit out hout
    rw [List.foldlM_cons] at hout
    cases hfa : f init a with
    | error e =>
      rw [hfa] at hout
      exact Except.noConfusion (hout : (Except.error e : Except String (List β)) = .ok out)
    | ok mid =>
      rw [hfa] at hout
      have hout2 : l.foldlM f mid = .ok out := hout
      exact ih (fun acc x hx => hstep acc x (List.mem_cons_of_mem _ hx)) mid
        (hstep init a (List.mem_cons_self _ _) mid hfa hinit) out hout2

theorem foldlM_except_error_origin {α β : Type}
    (f : List β → α → Except String (List β)) (l : List α) :
    ∀ init e, l.foldlM f init = .error e → ∃ acc x, x ∈ l ∧ f acc x = .error e := by
  induction l with
  | nil =>
    intro init e h
    rw [List.foldlM_nil] at h
    exact Except.noConfusion (h : (Except.ok init : Except String (List β)) = .error e)
  | cons a l ih =>
    intro init e h
    rw [List.foldlM_cons] at h
    cases hfa : f init a with
    | error e' =>
      rw [hfa] at h
      have he : e' = e := by
        have h2 : (Except.error e' : Except String (List β)) = .error e := h
        injection h2
      subst he
      exact ⟨init, a, List.mem_cons_self _ _, hfa⟩
    | ok mid =>
      rw [hfa] at h
      obtain ⟨acc, x, hx, hfx⟩ := ih mid e h
      exact ⟨acc, x, List.mem_cons_of_mem _ hx, hfx⟩

/-- Operator/name self-consistency, with the one exception the code contains:
the `'>='` on the undefined-audit `auditRan` failure. -/
def OpConsistent (r : AssertionResultNoURL) : Prop :=
  r.operator = (AUDIT_TYPE_OPERATORS r.name).operator ∨ (r.name = .auditRan ∧ r.operator = ">=")

/-- `OpConsistent` for annotated results. -/
def OpConsistentFull (r : AssertionResult) : Prop :=
  r.operator = (AUDIT_TYPE_OPERATORS r.name).operator ∨ (r.name = .auditRan ∧ r.operator = ">=")

theorem getAssertionResults_operator {pos : List (Option AuditResult)}
    {opts : AssertionOptions} (r : AssertionResultNoURL) (hr : r ∈ getAssertionResults pos opts) :
    r.operator = (AUDIT_TYPE_OPERATORS r.name).operator ∨
      (r.name = .auditRan ∧ r.operator = ">=" ∧ pos.any (fun result => result.isNone) = true) := by
  by_cases hany : pos.any (fun result => result.isNone) = true
  · rw [getAssertionResults, if_pos hany] at hr
    rw [List.mem_singleton.mp hr]
    exact Or.inr ⟨rfl, rfl, hany⟩
  · rw [getAssertionResults, if_neg hany] at hr
    rcases List.mem_append.mp hr with hm | hm
    · rcases mem_manualAssertionResults hm with ⟨v, _, hmem⟩ | ⟨v, _, hmem⟩ <;>
        exact Or.inl (getAssertionResult_operator_consistent r hmem)
    · rcases hms : (if opts.minScore.isNone && !(opts.maxLength.isSome || opts.maxNumericValue.isSome)
          then some 1 else opts.minScore) with _ | v
      · rw [hms] at hm
        simp at hm
      · rw [hms] at hm
        exact Or.inl (getAssertionResult_operator_consistent r hm)

theorem getAssertionResults_opConsistent {pos : List (Option AuditResult)}
    {opts : AssertionOptions} (r : AssertionResultNoURL)
    (hr : r ∈ getAssertionResults pos opts) : OpConsistent r := by
  rcases getAssertionResults_operator r hr with h | ⟨h1, h2, _⟩
  · exact Or.inl h
  · exact Or.inr ⟨h1, h2⟩

theorem opConsistent_update (r : AssertionResultNoURL) (p : Option String)
    (h : OpConsistent r) : OpConsistent { r with auditProperty := p } := h

theorem getBudgetAssertionResults_opConsistent (batch : List AuditResult)
    (r : AssertionResultNoURL) (hr : r ∈ getBudgetAssertionResults batch) : OpConsistent r := by
  obtain ⟨a, _, items, _, row, _, hname, hop, _⟩ :=
    (getBudgetAssertionResults_characterization batch).2 r hr
  refine Or.inl ?_
  rw [hop, hname]
  rfl

theorem getAssertionResultsForAudit_opConsistent {auditId : String}
    {auditProperty : Option (List String)} {auditResults : List (Option AuditResult)}
    {opts : AssertionOptions} {lhrs : List LHR} {out : List AssertionResultNoURL}
    (h : getAssertionResultsForAudit auditId auditProperty auditResults opts lhrs = .ok out) :
    ∀ r ∈ out, OpConsistent r := by
  unfold getAssertionResultsForAudit at h
  split at h
  · split at h
    · exact Except.noConfusion h
    · injection h with h
      rw [← h]
      exact getBudgetAssertionResults_opConsistent _
  · split at h
    · split at h
      · unfold getCategoryAssertionResults at h
        split at h
        · exact Except.noConfusion h
        · injection h with h
          rw [← h]
          intro r hr
          obtain ⟨r0, hr0, hmap⟩ := List.mem_map.mp hr
          rw [← hmap]
          exact opConsistent_update r0 _ (getAssertionResults_opConsistent r0 hr0)
      · split at h
        · split at h
          · exact Except.noConfusion h
          · injection h with h
            rw [← h]
            intro r hr
            obtain ⟨r0, hr0, hmap⟩ := List.mem_map.mp hr
            rw [← hmap]
            exact opConsistent_update r0 _ (getAssertionResults_opConsistent r0 hr0)
        · injection h with h
          rw [← h]
          intro r hr
          exact getAssertionResults_opConsistent r hr
    · injection h with h
      rw [← h]
      intro r hr
      exact getAssertionResults_opConsistent r hr

theorem annotateResult_opConsistent (auditToAssert : AuditToAssert) (level url : String)
    (r : AssertionResultNoURL) (h : OpConsistent r) :
    OpConsistentFull (annotateResult auditToAssert level url r) := h

theorem assertAuditStep_opConsistent (resolved : ResolvedOptions)
    (acc : List AssertionResult) (auditToAssert : AuditToAssert)
    (out : List AssertionResult) (h : assertAuditStep resolved acc auditToAssert = .ok out)
    (hacc : ∀ r ∈ acc, OpConsistentFull r) : ∀ r ∈ out, OpConsistentFull r := by
  unfold assertAuditStep at h
  simp only [] at h
  split at h
  · injection h with h
    rw [← h]
    exact hacc
  · split at h
    · exact Except.noConfusion h
    · rename_i assertionResults hafa
      injection h with h
      rw [← h]
      intro r hr
      rcases List.mem_append.mp hr with hr | hr
      · exact hacc r hr
      · obtain ⟨r0, hr0, hmap⟩ := List.mem_map.mp hr
        rw [← hmap]
        exact annotateResult_opConsistent _ _ _ r0
          (getAssertionResultsForAudit_opConsistent hafa r0 hr0)

theorem getAllFilteredAssertionResults_opConsistent {ext : Externals} {baseOptions : BaseOptions}
    {unfilteredLhrs : List LHR} {out : List AssertionResult}
    (h : getAllFilteredAssertionResults ext baseOptions unfilteredLhrs = .ok out) :
    ∀ r ∈ out, OpConsistentFull r := by
  unfold getAllFilteredAssertionResults at h
  split at h
  · exact Except.noConfusion h
  · rename_i resolved hres
    split at h
    · injection h with h
      rw [← h]
      intro r hr
      simp at hr
    · exact foldlM_except_ok_invariant OpConsistentFull (assertAuditStep resolved)
        resolved.auditsToAssert
        (fun acc x _ out2 hout2 hacc => assertAuditStep_opConsistent resolved acc x out2 hout2 hacc)
        [] (by simp) out h

theorem assertOptionsStep_opConsistent (ext : Externals) (lhrSet : List LHR)
    (acc : List AssertionResult) (baseOptions : BaseOptions) (out : List AssertionResult)
    (h : assertOptionsStep ext lhrSet acc baseOptions = .ok out)
    (hacc : ∀ r ∈ acc, OpConsistentFull r) : ∀ r ∈ out, OpConsistentFull r := by
  unfold assertOptionsStep at h
  split at h
  · exact Except.noConfusion h
  · rename_i groupResults hfil
    injection h with h
    rw [← h]
    intro r hr
    rcases List.mem_append.mp hr with hr | hr
    · exact hacc r hr
    · exact getAllFilteredAssertionResults_opConsistent hfil r hr

theorem assertGroupStep_opConsistent (ext : Externals) (arrayOfOptions : List BaseOptions)
    (acc : List AssertionResult) (lhrSet : List LHR) (out : List AssertionResult)
    (h : assertGroupStep ext arrayOfOptions acc lhrSet = .ok out)
    (hacc : ∀ r ∈ acc, OpConsistentFull r) : ∀ r ∈ out, OpConsistentFull r := by
  unfold assertGroupStep at h
  exact foldlM_except_ok_invariant OpConsistentFull (assertOptionsStep ext lhrSet) arrayOfOptions
    (fun acc2 x _ out2 hout2 hacc2 =>
      assertOptionsStep_opConsistent ext lhrSet acc2 x out2 hout2 hacc2)
    acc hacc out h

theorem getAllAssertionResults_opConsistent {ext : Externals} {options : AssertCommandOptions}
    {lhrs : List LHR} {out : List AssertionResult}
    (h : getAllAssertionResults ext options lhrs = .ok out) :
    ∀ r ∈ out, OpConsistentFull r := by
  unfold getAllAssertionResults at h
  simp only [] at h
  split at h
  · exact Except.noConfusion h
  · rename_i arrayOfOptions harr
    exact foldlM_except_ok_invariant OpConsistentFull (assertGroupStep ext arrayOfOptions)
      (groupByUrl lhrs)
      (fun acc x _ out2 hout2 hacc =>
        assertGroupStep_opConsistent ext arrayOfOptions acc x out2 hout2 hacc)
      [] (by simp) out h

/-- A simple concrete instantiation of the external collaborators. -/
def extDefault : Externals :=
  { regexTest := fun _ _ => true, splitMarkdownLink := fun _ => [],
    computeRepresentativeRuns := fun _ => [], presetLookup := fun _ => none }

/-- C1 amended: every result of `getAssertionResult` carries the operator that
`AUDIT_TYPE_OPERATORS` defines for its name; the same holds across
`getAssertionResults` and the whole orchestrator, except that the `auditRan`
violation emitted for an undefined audit result carries `'>='`. -/
theorem C1_operator_consistency :
    (∀ (a : List AuditResult) (m : AggregationMethod) (t : AssertionType) (e : ℚ),
      ∀ r ∈ getAssertionResult a m t e,
        r.operator = (AUDIT_TYPE_OPERATORS r.name).operator) ∧
    (∀ (pos : List (Option AuditResult)) (opts : AssertionOptions),
      ∀ r ∈ getAssertionResults pos opts,
        r.operator = (AUDIT_TYPE_OPERATORS r.name).operator ∨
          (r.name = .auditRan ∧ r.operator = ">=" ∧
            pos.any (fun result => result.isNone) = true)) ∧
    (∀ (ext : Externals) (options : AssertCommandOptions) (lhrs : List LHR)
        (results : List AssertionResult),
      getAllAssertionResults ext options lhrs = .ok results →
      ∀ r ∈ results,
        r.operator = (AUDIT_TYPE_OPERATORS r.name).operator ∨
          (r.name = .auditRan ∧ r.operator = ">=")) :=
  ⟨fun _ _ _ _ r hr => getAssertionResult_operator_consistent r hr,
   fun _ _ r hr => getAssertionResults_operator r hr,
   fun _ _ _ _ h r hr => getAllAssertionResults_opConsistent h r hr⟩

/-- Witness for C1's amended statement at the undefined-audit input. -/
theorem C1_operator_consistency_witness :
    ∀ r ∈ getAssertionResults [none] {},
      r.operator = (AUDIT_TYPE_OPERATORS r.name).operator ∨
        (r.name = .auditRan ∧ r.operator = ">=" ∧
          ([(none : Option AuditResult)].any (fun result => result.isNone) = true)) :=
  C1_operator_consistency.2.1 [none] {}

/-! ### Orchestrator error provenance and the assertMatrix exclusivity check -/

theorem resolveWithOptions_error {ext : Externals} {o : BaseOptions} {lhrs : List LHR} {e : String}
    (h : resolveWithOptions ext o lhrs = .error e) :
    e = "Can only assert one URL at a time!" := by
  unfold resolveWithOptions at h
  simp only [] at h
  split at h
  · injection h with h
    exact h.symm
  · exact Except.noConfusion h

theorem resolveAssertionOptionsAndLhrs_error {ext : Externals} {b : BaseOptions}
    {lhrs : List LHR} {e : String}
    (h : resolveAssertionOptionsAndLhrs ext b lhrs = .error e) :
    e = "Can only assert one URL at a time!" ∨
      ∃ n, e = "Cannot find module ./presets/" ++ n ++ ".js" := by
  unfold resolveAssertionOptionsAndLhrs at h
  simp only [] at h
  split at h
  · exact Or.inl (resolveWithOptions_error h)
  · rename_i name hname
    split at h
    · injection h with h
      exact Or.inr ⟨name, h.symm⟩
    · exact Or.inl (resolveWithOptions_error h)

theorem getAssertionResultsForAudit_error {auditId : String}
    {auditProperty : Option (List String)} {auditResults : List (Option AuditResult)}
    {opts : AssertionOptions} {lhrs : List LHR} {e : String}
    (h : getAssertionResultsForAudit auditId auditProperty auditResults opts lhrs = .error e) :
    e = "TypeError: Cannot read property of undefined" ∨
      ∃ k, e = "Invalid resource-summary assertion \"" ++ k ++ "\"" := by
  unfold getAssertionResultsForAudit at h
  split at h
  · split at h
    · injection h with h
      exact Or.inl h.symm
    · exact Except.noConfusion h
  · split at h
    next ap =>
      split at h
      · unfold getCategoryAssertionResults at h
        split at h
        · injection h with h
          exact Or.inr ⟨String.intercalate "." ap, h.symm⟩
        · exact Except.noConfusion h
      · split at h
        · split at h
          · injection h with h
            exact Or.inr ⟨String.intercalate "." ap, h.symm⟩
          · exact Except.noConfusion h
        · exact Except.noConfusion h
    next => exact Except.noConfusion h

theorem assertAuditStep_error {resolved : ResolvedOptions} {acc : List AssertionResult}
    {auditToAssert : AuditToAssert} {e : String}
    (h : assertAuditStep resolved acc auditToAssert = .error e) :
    e = "TypeError: Cannot read property of undefined" ∨
      ∃ k, e = "Invalid resource-summary assertion \"" ++ k ++ "\"" := by
  unfold assertAuditStep at h
  simp only [] at h
  split at h
  · exact Except.noConfusion h
  · split at h
    · rename_i e' hafa
      injection h with h
      rw [← h]
      exact getAssertionResultsForAudit_error hafa
    · exact Except.noConfusion h

/-- The error messages the per-group evaluation can produce. -/
def InternalError (e : String) : Prop :=
  e = "Can only assert one URL at a time!" ∨
  (∃ n, e = "Cannot find module ./presets/" ++ n ++ ".js") ∨
  (∃ k, e = "Invalid resource-summary assertion \"" ++ k ++ "\"") ∨
  e = "TypeError: Cannot read property of undefined"

theorem getAllFilteredAssertionResults_error {ext : Externals} {b : BaseOptions}
    {lhrs : List LHR} {e : String}
    (h : getAllFilteredAssertionResults ext b lhrs = .error e) : InternalError e := by
  unfold getAllFilteredAssertionResults at h
  split at h
  · rename_i e' hres
    injection h with h
    rw [← h]
    rcases resolveAssertionOptionsAndLhrs_error hres with h2 | h2
    · exact Or.inl h2
    · exact Or.inr (Or.inl h2)
  · rename_i resolved hres
    split at h
    · exact Except.noConfusion h
    · obtain ⟨acc, x, _, hstep⟩ :=
        foldlM_except_error_origin (assertAuditStep resolved) resolved.auditsToAssert [] e h
      rcases assertAuditStep_error hstep with h2 | h2
      · exact Or.inr (Or.inr (Or.inr h2))
      · exact Or.inr (Or.inr (Or.inl h2))

theorem assertOptionsStep_error {ext : Externals} {lhrSet : List LHR}
    {acc : List AssertionResult} {b : BaseOptions} {e : String}
    (h : assertOptionsStep ext lhrSet acc b = .error e) : InternalError e := by
  unfold assertOptionsStep at h
  split at h
  · rename_i e' hfil
    injection h with h
    rw [← h]
    exact getAllFilteredAssertionResults_error hfil
  · exact Except.noConfusion h

theorem assertGroupStep_error {ext : Externals} {arrayOfOptions : List BaseOptions}
    {acc : List AssertionResult} {lhrSet : List LHR} {e : String}
    (h : assertGroupStep ext arrayOfOptions acc lhrSet = .error e) : InternalError e := by
  unfold assertGroupStep at h
  obtain ⟨acc2, x, _, hstep⟩ :=
    foldlM_except_error_origin (assertOptionsStep ext lhrSet) arrayOfOptions acc e h
  exact assertOptionsStep_error hstep

theorem internalError_ne_assertMatrix {e : String} (h : InternalError e) :
    e ≠ "Cannot use assertMatrix with other options" := by
  rcases h with h | ⟨n, h⟩ | ⟨k, h⟩ | h
  · rw [h]; decide
  · rw [h]
    intro hc
    have hd : ("Cannot find module ./presets/".data ++ n.data) ++ ".js".data =
        "Cannot use assertMatrix with other options".data := congrArg String.data hc
    have h7 := congrArg (fun l => l[7]?) hd
    simp only [] at h7
    have h29 : ("Cannot find module ./presets/".data).length = 29 := rfl
    rw [List.getElem?_append_left (by rw [List.length_append, h29]; omega)] at h7
    rw [List.getElem?_append_left (by rw [h29]; omega)] at h7
    exact absurd h7 (by decide)
  · rw [h]
    intro hc
    have hd : ("Invalid resource-summary assertion \"".data ++ k.data) ++ "\"".data =
        "Cannot use assertMatrix with other options".data := congrArg String.data hc
    have h0 := congrArg (fun l => l[0]?) hd
    simp only [] at h0
    have h36 : ("Invalid resource-summary assertion \"".data).length = 36 := rfl
    rw [List.getElem?_append_left (by rw [List.length_append, h36]; omega)] at h0
    rw [List.getElem?_append_left (by rw [h36]; omega)] at h0
    exact absurd h0 (by decide)
  · rw [h]; decide


theorem foldlM_assertOptionsStep_ok (ext : Externals) (g : List LHR)
    (matrix : List BaseOptions) (F : List LHR → BaseOptions → List AssertionResult)
    (hok : ∀ b ∈ matrix, getAllFilteredAssertionResults ext b g = .ok (F g b)) :
    ∀ init, matrix.foldlM (assertOptionsStep ext g) init =
      .ok (init ++ matrix.flatMap (fun b => F g b)) := by
  induction matrix with
  | nil =>
    intro init
    rw [List.foldlM_nil]
    show (Except.ok init : Except String (List AssertionResult)) = _
    simp
  | cons b bs ih =>
    intro init
    rw [List.foldlM_cons]
    have hstep : assertOptionsStep ext g init b = .ok (init ++ F g b) := by
      unfold assertOptionsStep
      rw [hok b (List.mem_cons_self _ _)]
    rw [hstep]
    have hrest := ih (fun b2 hb2 => hok b2 (List.mem_cons_of_mem _ hb2)) (init ++ F g b)
    calc (Except.ok (init ++ F g b) >>= fun acc => bs.foldlM (assertOptionsStep ext g) acc)
        = bs.foldlM (assertOptionsStep ext g) (init ++ F g b) := rfl
      _ = .ok ((init ++ F g b) ++ bs.flatMap (fun b2 => F g b2)) := hrest
      _ = .ok (init ++ (b :: bs).flatMap (fun b2 => F g b2)) := by
          rw [List.flatMap_cons, List.append_assoc]

theorem foldlM_assertGroupStep_ok (ext : Externals) (matrix : List BaseOptions)
    (groups : List (List LHR)) (F : List LHR → BaseOptions → List AssertionResult)
    (hok : ∀ g ∈ groups, ∀ b ∈ matrix, getAllFilteredAssertionResults ext b g = .ok (F g b)) :
    ∀ init, groups.foldlM (assertGroupStep ext matrix) init =
      .ok (init ++ groups.flatMap (fun g => matrix.flatMap (fun b => F g b))) := by
  induction groups with
  | nil =>
    intro init
    rw [List.foldlM_nil]
    show (Except.ok init : Except String (List AssertionResult)) = _
    simp
  | cons g gs ih =>
    intro init
    rw [List.foldlM_cons]
    have hstep : assertGroupStep ext matrix init g =
        .ok (init ++ matrix.flatMap (fun b => F g b)) := by
      unfold assertGroupStep
      exact foldlM_assertOptionsStep_ok ext g matrix F (hok g (List.mem_cons_self _ _)) init
    rw [hstep]
    have hrest := ih (fun g2 hg2 => hok g2 (List.mem_cons_of_mem _ hg2))
      (init ++ matrix.flatMap (fun b => F g b))
    calc (Except.ok (init ++ matrix.flatMap (fun b => F g b)) >>=
            fun acc => gs.foldlM (assertGroupStep ext matrix) acc)
        = gs.foldlM (assertGroupStep ext matrix) (init ++ matrix.flatMap (fun b => F g b)) := rfl
      _ = .ok ((init ++ matrix.flatMap (fun b => F g b)) ++
            gs.flatMap (fun g2 => matrix.flatMap (fun b => F g2 b))) := hrest
      _ = .ok (init ++ (g :: gs).flatMap (fun g2 => matrix.flatMap (fun b => F g2 b))) := by
          rw [List.flatMap_cons, List.append_assoc]

/-- C8 amended: the orchestrator throws "Cannot use assertMatrix with other
options" exactly when `assertMatrix` is present together with a truthy
`assertions`, `preset`, `budgetsFile` or `aggregationMethod`
(`matchingUrlPattern` is not part of the check); otherwise it evaluates each
matrix entry against each URL group and concatenates the results. -/
theorem C8_assertMatrix_exclusivity (ext : Externals) (options : AssertCommandOptions)
    (lhrs : List LHR) :
    (getAllAssertionResults ext options lhrs = .error "Cannot use assertMatrix with other options" ↔
      (options.assertMatrix.isSome = true ∧
        (options.assertions.isSome = true ∨ truthyStringOpt options.preset = true ∨
          truthyStringOpt options.budgetsFile = true ∨
          options.aggregationMethod.isSome = true))) ∧
    (∀ (matrix : List BaseOptions) (F : List LHR → BaseOptions → List AssertionResult),
      options.assertMatrix = some matrix →
      ¬ (options.assertions.isSome = true ∨ truthyStringOpt options.preset = true ∨
          truthyStringOpt options.budgetsFile = true ∨
          options.aggregationMethod.isSome = true) →
      (∀ g ∈ groupByUrl lhrs, ∀ b ∈ matrix,
        getAllFilteredAssertionResults ext b g = .ok (F g b)) →
      getAllAssertionResults ext options lhrs =
        .ok ((groupByUrl lhrs).flatMap (fun g => matrix.flatMap (fun b => F g b)))) := by
  constructor
  · constructor
    · intro h
      unfold getAllAssertionResults at h
      simp only [] at h
      split at h
      · rename_i e' harr
        injection h with h
        subst h
        split at harr
        · rename_i matrix hmx
          split at harr
          · rename_i hcond
            refine ⟨by rw [hmx]; rfl, ?_⟩
            have := hcond
            simp only [Bool.or_eq_true] at this
            tauto
          · exact Except.noConfusion harr
        · exact Except.noConfusion harr
      · rename_i arrayOfOptions harr
        obtain ⟨acc, x, _, hstep⟩ := foldlM_except_error_origin
          (assertGroupStep ext arrayOfOptions) (groupByUrl lhrs) [] _ h
        exact absurd rfl (internalError_ne_assertMatrix (assertGroupStep_error hstep))
    · rintro ⟨hsome, hcond⟩
      cases hmx : options.assertMatrix with
      | none => rw [hmx] at hsome; exact Bool.noConfusion hsome
      | some matrix =>
        have hcondb : (options.assertions.isSome || truthyStringOpt options.preset ||
            truthyStringOpt options.budgetsFile || options.aggregationMethod.isSome) = true := by
          simp only [Bool.or_eq_true]
          tauto
        unfold getAllAssertionResults
        simp only [hmx, hcondb, if_true]
  · intro matrix F hmx hncond hok
    have hcondb : (options.assertions.isSome || truthyStringOpt options.preset ||
        truthyStringOpt options.budgetsFile || options.aggregationMethod.isSome) = false := by
      rcases hb1 : options.assertions.isSome <;>
        rcases hb2 : truthyStringOpt options.preset <;>
        rcases hb3 : truthyStringOpt options.budgetsFile <;>
        rcases hb4 : options.aggregationMethod.isSome <;>
        simp_all
    unfold getAllAssertionResults
    simp only [hmx, hcondb, Bool.false_eq_true, if_false]
    rw [foldlM_assertGroupStep_ok ext matrix (groupByUrl lhrs) F hok []]
    rw [List.nil_append]

/-- C8 counterexample: `assertMatrix` together with `matchingUrlPattern` — a
top-level configuration field — does not throw; the call succeeds. -/
theorem C8_counterexample :
    getAllAssertionResults extDefault
      { assertMatrix := some [], matchingUrlPattern := some ".*" } [] = .ok [] := rfl

/-- Witness for C8's amended statement: `assertMatrix` plus a present
`assertions` object throws. -/
theorem C8_assertMatrix_exclusivity_witness :
    getAllAssertionResults extDefault { assertMatrix := some [], assertions := some [] } [] =
      .error "Cannot use assertMatrix with other options" :=
  (C8_assertMatrix_exclusivity extDefault
    { assertMatrix := some [], assertions := some [] } []).1.mpr ⟨rfl, Or.inl rfl⟩

/-! ### Silent skip of non-kebab-case assertion keys -/

theorem dedupKeepFirst_const (u : String) (l : List LHR)
    (hurl : ∀ lhr ∈ l, lhr.finalUrl = u) :
    dedupKeepFirst (l.map (fun lhr => lhr.finalUrl)) = [] ∨
      dedupKeepFirst (l.map (fun lhr => lhr.finalUrl)) = [u] := by
  unfold dedupKeepFirst
  suffices h : ∀ acc : List String, acc = [] ∨ acc = [u] →
      (l.map (fun lhr => lhr.finalUrl)).foldl
        (fun acc s => if s ∈ acc then acc else acc ++ [s]) acc = [] ∨
      (l.map (fun lhr => lhr.finalUrl)).foldl
        (fun acc s => if s ∈ acc then acc else acc ++ [s]) acc = [u] by
    exact h [] (Or.inl rfl)
  induction l with
  | nil =>
    intro acc hacc
    simpa using hacc
  | cons x xs ih =>
    intro acc hacc
    rw [List.map_cons, List.foldl_cons]
    rw [hurl x (List.mem_cons_self _ _)]
    rcases hacc with rfl | rfl
    · refine ih (fun lhr hl => hurl lhr (List.mem_cons_of_mem _ hl)) _ ?_
      rw [if_neg (by simp)]
      exact Or.inr (by simp)
    · refine ih (fun lhr hl => hurl lhr (List.mem_cons_of_mem _ hl)) _ ?_
      rw [if_pos (by simp)]
      exact Or.inr rfl

theorem mem_foldl_dedup (x : String) :
    ∀ (l : List String) (acc : List String), x ∈ acc →
      x ∈ l.foldl (fun acc s => if s ∈ acc then acc else acc ++ [s]) acc
  | [], _, hx => hx
  | y :: ys, acc, hx => by
    rw [List.foldl_cons]
    refine mem_foldl_dedup x ys _ ?_
    by_cases hy : y ∈ acc
    · rw [if_pos hy]; exact hx
    · rw [if_neg hy]; exact List.mem_append_left _ hx

theorem mem_dedupKeepFirst (x : String) :
    ∀ (l : List String), x ∈ l → x ∈ dedupKeepFirst l := by
  suffices h : ∀ (l : List String) (acc : List String), x ∈ l →
      x ∈ l.foldl (fun acc s => if s ∈ acc then acc else acc ++ [s]) acc by
    intro l hx
    exact h l [] hx
  intro l
  induction l with
  | nil => intro acc hx; exact absurd hx (List.not_mem_nil x)
  | cons y ys ih =>
    intro acc hx
    rw [List.foldl_cons]
    rcases List.mem_cons.mp hx with rfl | hmem
    · refine mem_foldl_dedup x ys _ ?_
      by_cases hy : x ∈ acc
      · rw [if_pos hy]; exact hy
      · rw [if_neg hy]; exact List.mem_append_right _ (List.mem_singleton.mpr rfl)
    · exact ih _ hmem

theorem lookup_eq_none_of_not_mem {β : Type} (key : String) :
    ∀ (l : List (String × β)), key ∉ l.map Prod.fst → l.lookup key = none
  | [], _ => rfl
  | (a, b) :: ps, h => by
    have h1 : (key == a) = false := by
      refine beq_eq_false_iff_ne.mpr (fun he => h ?_)
      rw [List.map_cons, he]
      exact List.mem_cons_self _ _
    have h2 : key ∉ ps.map Prod.fst := fun hm => h (by
      rw [List.map_cons]
      exact List.mem_cons_of_mem _ hm)
    simp [List.lookup, h1, lookup_eq_none_of_not_mem key ps h2]

/-- Counterexample to C10 as frozen: a mapping that contains a non-kebab key
(`"firstContentfulPaint"`) but also its normalized form
(`"first-contentful-paint"`). The lookup under the normalized key does NOT
miss (it finds level `"error"`, not the `'off'` default), and the call
produces a violation rather than silently skipping the assertion. -/
theorem C10_counterexample :
    kebabCase "firstContentfulPaint" ≠ "firstContentfulPaint" ∧
    normalizeAssertion ([("firstContentfulPaint", AssertionValue.level "warn"),
        ("first-contentful-paint", AssertionValue.level "error")].lookup
      (kebabCase "firstContentfulPaint")) ≠ ("off", {}) ∧
    getAllFilteredAssertionResults extDefault
      { assertions := some [("firstContentfulPaint", AssertionValue.level "warn"),
          ("first-contentful-paint", AssertionValue.level "error")] }
      [{ finalUrl := "u", audits := [("first-contentful-paint", { score := some 0 })] }] =
      .ok [{ url := "u", name := .minScore, operator := ">=", expected := 1, actual := 0,
             values := [0], level := some "error",
             auditId := some "first-contentful-paint" }] := by
  refine ⟨by decide, by decide, ?_⟩
  rfl

/-- C10 amended: for every assertions mapping containing a key that is not in
canonical kebab-case form and whose normalized (kebab-case) form is not
itself a key of the mapping, the resolver enumerates the audit under the
normalized key, but the level/options lookup in the original mapping with
that normalized key misses, the level defaults to `'off'`, and the
assertion's evaluation step is silently skipped — it returns its accumulator
unchanged: no violations and no error. -/
theorem C10_nonkebab_key_skipped (ext : Externals) (k : String)
    (assertions : List (String × AssertionValue)) (lhrs : List LHR) (u : String)
    (hk : k ∈ assertions.map Prod.fst)
    (hkk : kebabCase k ≠ k)
    (hmiss : kebabCase k ∉ assertions.map Prod.fst)
    (hurl : ∀ lhr ∈ lhrs, lhr.finalUrl = u) :
    ∃ resolved,
      resolveAssertionOptionsAndLhrs ext { assertions := some assertions } lhrs =
        .ok resolved ∧
      kebabCase k ∈ resolved.auditsToAssert.map (fun a => a.assertionKey) ∧
      normalizeAssertion (resolved.assertions.lookup (kebabCase k)) = ("off", {}) ∧
      ∀ acc auditToAssert, auditToAssert.assertionKey = kebabCase k →
        assertAuditStep resolved acc auditToAssert = .ok acc := by
  have hlookup : assertions.lookup (kebabCase k) = none :=
    lookup_eq_none_of_not_mem (kebabCase k) assertions hmiss
  have hlen : (dedupKeepFirst (lhrs.map (fun lhr => lhr.finalUrl))).length ≤ 1 := by
    rcases dedupKeepFirst_const u lhrs hurl with h | h <;> rw [h] <;> simp
  have hresolve : resolveAssertionOptionsAndLhrs ext { assertions := some assertions } lhrs =
      resolveWithOptions ext { assertions := some assertions } lhrs := rfl
  have hres : resolveWithOptions ext { assertions := some assertions } lhrs =
      .ok { assertions := assertions,
            auditsToAssert := (dedupKeepFirst ((assertions.map Prod.fst).map kebabCase)).map
              (makeAuditToAssert ext lhrs),
            medianLhrs := ext.computeRepresentativeRuns [lhrs.map (fun lhr => (lhr, lhr))],
            aggregationMethod := none,
            lhrs := lhrs,
            url := ((lhrs.head?).map (fun lhr => lhr.finalUrl)).getD "" } := by
    unfold resolveWithOptions
    simp only [show ({ assertions := some assertions } : BaseOptions).matchingUrlPattern = none
      from rfl]
    rw [if_neg (by omega)]
    rfl
  refine ⟨_, hresolve.trans hres, ?_, ?_, ?_⟩
  · have hdedup : kebabCase k ∈ dedupKeepFirst ((assertions.map Prod.fst).map kebabCase) :=
      mem_dedupKeepFirst _ _ (List.mem_map_of_mem kebabCase hk)
    exact List.mem_map.mpr ⟨makeAuditToAssert ext lhrs (kebabCase k),
      List.mem_map_of_mem _ hdedup, rfl⟩
  · show normalizeAssertion (assertions.lookup (kebabCase k)) = ("off", {})
    rw [hlookup]
    rfl
  · intro acc auditToAssert hkey
    unfold assertAuditStep
    simp only [hkey]
    show (if (normalizeAssertion (assertions.lookup (kebabCase k))).1 = "off" then
      Except.ok acc else _) = Except.ok acc
    rw [hlookup]
    rfl

/-- Witness for C10's amended statement: the one-entry camelCase mapping over
a report that does contain the audit (with a failing score). The camelCase
key is in the mapping, its kebab form is not, the resolver succeeds, the
dashed key is enumerated, its lookup normalizes to `'off'`, and the
evaluation step leaves the accumulator unchanged. -/
theorem C10_nonkebab_key_skipped_witness :
    ("firstContentfulPaint" ∈
        ([("firstContentfulPaint", AssertionValue.level "error")].map Prod.fst) ∧
      kebabCase "firstContentfulPaint" ≠ "firstContentfulPaint" ∧
      kebabCase "firstContentfulPaint" ∉
        ([("firstContentfulPaint", AssertionValue.level "error")].map Prod.fst)) ∧
    ∃ resolved,
      resolveAssertionOptionsAndLhrs extDefault
          { assertions := some [("firstContentfulPaint", AssertionValue.level "error")] }
          [{ finalUrl := "u", audits := [("first-contentful-paint", { score := some 0 })] }] =
        .ok resolved ∧
      kebabCase "firstContentfulPaint" ∈
        resolved.auditsToAssert.map (fun a => a.assertionKey) ∧
      normalizeAssertion (resolved.assertions.lookup (kebabCase "firstContentfulPaint")) =
        ("off", {}) ∧
      ∀ acc auditToAssert, auditToAssert.assertionKey = kebabCase "firstContentfulPaint" →
        assertAuditStep resolved acc auditToAssert = .ok acc :=
  ⟨⟨by decide, by decide, by decide⟩,
   C10_nonkebab_key_skipped extDefault "firstContentfulPaint"
     [("firstContentfulPaint", AssertionValue.level "error")]
     [{ finalUrl := "u", audits := [("first-contentful-paint", { score := some 0 })] }] "u"
     (by decide) (by decide) (by decide)
     (by intro lhr hl; simp at hl; subst hl; rfl)⟩
